import Mathlib

/-!
# Verification of the fixed-length-search library

A shallow embedding of the Rust sources (`graph.rs`, `path.rs`) of the
`fixed-length-search` repository, together with proofs and refutations of
the specification claims.

Conventions of the embedding:
* `usize` values are `Nat`s; `usize::MAX` is the sentinel `USIZE_MAX`.
* Arithmetic on `usize` is checked: an overflowing `+` or underflowing `-`
  is a fault (Rust panics on overflow in debug builds), modelled as `none`.
* Every fallible operation (vector indexing out of bounds, `unwrap` on
  `None`, arithmetic faults, non-termination of a pointer chase) is
  modelled in the `Option` monad: `none` means the Rust program does not
  return normally at this point.
* A search that returns normally yields `some r` where `r : Option (List Nat)`
  is the Rust `Option<Vec<usize>>` (`none` = `NotFound`).
* Loops whose termination is not structural take an explicit fuel argument;
  the fuel bounds proved below show the chosen budgets are never exhausted
  on the executions the theorems speak about.
-/

/-- `usize::MAX`, used by the Rust code as the "infinite distance" /
"no predecessor" sentinel. -/
def USIZE_MAX : Nat := 2 ^ 64 - 1

/-- Checked `usize` addition: faults (debug-build panic) on overflow. -/
def cadd (a b : Nat) : Option Nat :=
  if a + b ≤ USIZE_MAX then some (a + b) else none

/-- Checked `usize` subtraction: faults (debug-build panic) on underflow. -/
def csub (a b : Nat) : Option Nat :=
  if b ≤ a then some (a - b) else none

/-- Bounds-checked vector write, `v[i] = a` (Rust panics when `i` is out of
range). -/
def setN {α : Type} (l : List α) (i : Nat) (a : α) : Option (List α) :=
  if i < l.length then some (l.set i a) else none

/-- Rust's `Vec::swap_remove i`: overwrite position `i` with the last
element and pop the last element.  (Call sites always have `i` in range.) -/
def swapRemove {α : Type} (l : List α) (i : Nat) : List α :=
  match l.getLast? with
  | none => l
  | some last => (l.set i last).dropLast

/-- The `Graph` struct of `graph.rs`: a fixed vertex count and one
adjacency list per vertex. -/
structure Graph where
  size : Nat
  data : List (List Nat)
deriving Repr, DecidableEq

/-- The adjacency list of `v` (empty for an out-of-range id): a total
convenience accessor used in specifications. -/
def Graph.adj (g : Graph) (v : Nat) : List Nat :=
  (g.data[v]?).getD []

/-- Total row accessor for a data matrix (empty for an out-of-range id). -/
def row (d : List (List Nat)) (u : Nat) : List Nat :=
  (d[u]?).getD []

/-- Well-formedness of a `Graph` value as maintained by `Graph::new` and
the mutation API: one adjacency list per vertex, every stored neighbor id
in range, and a vertex count small enough to be a real `Vec` length
(`Vec<Vec<usize>>` elements occupy ≥ 24 bytes, so `size < 2 ^ 61`). -/
def Graph.WF (g : Graph) : Prop :=
  g.data.length = g.size ∧
  (∀ l ∈ g.data, ∀ x ∈ l, x < g.size) ∧
  g.size < 2 ^ 61

instance (g : Graph) : Decidable g.WF := by
  unfold Graph.WF; infer_instance

/-- `Graph::add_edge`: `data[a].push(b); data[b].push(a)`. -/
def add_edge (g : Graph) (a b : Nat) : Option Graph := do
  let la ← g.data[a]?
  let d1 := g.data.set a (la ++ [b])
  let lb ← d1[b]?
  some ⟨g.size, d1.set b (lb ++ [a])⟩

/-- Rust's `Iterator::position`: index of the first element satisfying
`p`, `None` when there is none. -/
def position (p : Nat → Bool) : List Nat → Option Nat
  | [] => none
  | x :: rest => if p x then some 0 else (position p rest).map (· + 1)

/-- `Graph::remove_edge`: locate `b` in `a`'s list (`unwrap` faults when
absent), `swap_remove` it, then the same for `a` in `b`'s list. -/
def remove_edge (g : Graph) (a b : Nat) : Option Graph := do
  let la ← g.data[a]?
  let bPos ← position (· == b) la
  let d1 := g.data.set a (swapRemove la bPos)
  let lb ← d1[b]?
  let aPos ← position (· == a) lb
  some ⟨g.size, d1.set b (swapRemove lb aPos)⟩

/-- `Graph::has_edge`: membership test in `a`'s adjacency list. -/
def has_edge (g : Graph) (a b : Nat) : Option Bool := do
  let la ← g.data[a]?
  some (la.contains b)

/-- The neighbor-removal loop of `Graph::pop_edges`: for each `u` in the
snapshot, locate `vertex` in `u`'s list (`unwrap`) and `swap_remove` it. -/
def popLoop (d : List (List Nat)) (ns : List Nat) (vertex : Nat) :
    Option (List (List Nat)) :=
  match ns with
  | [] => some d
  | u :: rest => do
      let lu ← d[u]?
      let pos ← position (· == vertex) lu
      popLoop (d.set u (swapRemove lu pos)) rest vertex

/-- `Graph::pop_edges`: snapshot `vertex`'s list, remove `vertex` from each
former neighbor's list, then clear `vertex`'s own list; returns the new
graph and the snapshot. -/
def pop_edges (g : Graph) (vertex : Nat) : Option (Graph × List Nat) := do
  let neighbors ← g.data[vertex]?
  let d ← popLoop g.data neighbors vertex
  some (⟨g.size, d.set vertex []⟩, neighbors)

/-- `Graph::add_edges`: `add_edge vertex u` for each `u` of the snapshot. -/
def add_edges (g : Graph) (vertex : Nat) (neighbors : List Nat) :
    Option Graph :=
  match neighbors with
  | [] => some g
  | u :: rest => do
      let g' ← add_edge g vertex u
      add_edges g' vertex rest

/-- The symmetry invariant of the spec: `b` occurs in `a`'s list as often
as `a` occurs in `b`'s list. -/
def Graph.Symm (g : Graph) : Prop :=
  ∀ a b : Nat, (g.adj a).count b = (g.adj b).count a

/-! ## `path.rs`: the two searches and their BFS primitives -/

/-- `in_path predecessor vertex current fuel`: the pointer chase of
`path.rs::in_path`, walking the predecessor chain from `current` and
looking for `vertex`.  The chain may in principle be cyclic (the Rust loop
would then not terminate), hence the fuel. -/
def in_path (predecessor : List Nat) (vertex : Nat) :
    Nat → Nat → Option Bool
  | _, 0 => none
  | current, fuel + 1 => do
      let p ← predecessor[current]?
      if p = USIZE_MAX then some false
      else if p = vertex then some true
      else in_path predecessor vertex p fuel

/-- One predecessor-chain walk of the reconstruction loops: starting from
`current`, repeatedly push `predecessor[current]` and step, until the
sentinel is reached; `path` is the accumulator pushed onto. -/
def predWalk (predecessor : List Nat) :
    Nat → Nat → List Nat → Option (List Nat)
  | 0, _, _ => none
  | fuel + 1, current, path => do
      let p ← predecessor[current]?
      if p = USIZE_MAX then some path
      else predWalk predecessor fuel p (path ++ [p])

/-- The path assembly of `fixed_length_bfs` on success: `vec![current]`,
extended with the start-side predecessor walk from `vertex`, reversed,
then extended with the end-side predecessor walk from `vertex`. -/
def reconstructPath (g : Graph) (pfs pfe : List Nat) (current vertex : Nat) :
    Option (List Nat) := do
  let p1 ← predWalk pfs (g.size + 1) vertex [current]
  predWalk pfe (g.size + 1) vertex p1.reverse

/-- The neighbor scan of the phase-A full BFS of `fixed_length_bfs`:
first-visit discovery, recording distance and predecessor and pushing to
the queue's back. -/
def phaseAScan (current : Nat) :
    List Nat → List Nat → List Nat → List Nat →
    Option (List Nat × List Nat × List Nat)
  | [], q, dts, pfs => some (q, dts, pfs)
  | v :: rest, q, dts, pfs => do
      let dv ← dts[v]?
      if dv = USIZE_MAX then do
        let dc ← dts[current]?
        let d1 ← cadd dc 1
        let dts' ← setN dts v d1
        let pfs' ← setN pfs v current
        phaseAScan current rest (q ++ [v]) dts' pfs'
      else phaseAScan current rest q dts pfs

/-- The phase-A loop of `fixed_length_bfs`: a full single-source BFS from
`start` (FIFO: pop from the queue's front), not stopping at `end`. -/
def phaseALoop (g : Graph) :
    Nat → List Nat → List Nat → List Nat → Option (List Nat × List Nat)
  | 0, _, _, _ => none
  | _ + 1, [], dts, pfs => some (dts, pfs)
  | fuel + 1, current :: q, dts, pfs => do
      let ns ← g.data[current]?
      let (q', dts', pfs') ← phaseAScan current ns q dts pfs
      phaseALoop g fuel q' dts' pfs'

/-- Result of one phase-B neighbor scan: either the Rust `return Some(path)`
fired, or the scan finished with updated queue / distance / predecessor
state. -/
inductive BStep where
  | found : List Nat → BStep
  | cont : List Nat → List Nat → List Nat → BStep
deriving Repr, DecidableEq

/-- The neighbor scan of phase B of `fixed_length_bfs`, with the exact
acceptance condition (including short-circuit evaluation order) and the
in-scan success check and reconstruction. -/
def phaseBScan (g : Graph) (distance : Nat) (dts pfs : List Nat)
    (current : Nat) :
    List Nat → List Nat → List Nat → List Nat → Option BStep
  | [], q, dte, pfe => some (.cont q dte pfe)
  | v :: rest, q, dte, pfe => do
      let dv ← dte[v]?
      let accept ←
        if dv = USIZE_MAX then some true
        else do
          let dc ← dte[current]?
          let d1 ← cadd dc 1
          if dv < d1 then do
            let dsv ← dts[v]?
            let s ← cadd dc dsv
            if s < distance then do
              let b ← in_path pfe v current (g.size + 1)
              some (!b)
            else some false
          else some false
      if accept then do
        let dc ← dte[current]?
        let d1 ← cadd dc 1
        let dte' ← setN dte v d1
        let pfe' ← setN pfe v current
        let dsv ← dts[v]?
        let dtv ← dte'[v]?
        let s ← cadd dsv dtv
        if s = distance then do
          let p ← reconstructPath g pfs pfe' current v
          some (.found p)
        else phaseBScan g distance dts pfs current rest (q ++ [v]) dte' pfe'
      else phaseBScan g distance dts pfs current rest q dte pfe

/-- The phase-B loop of `fixed_length_bfs`: pops from the queue's *back*
(`pop_back`), scans the popped vertex's neighbors, and stops on an
in-scan success. -/
def phaseBLoop (g : Graph) (distance : Nat) (dts pfs : List Nat) :
    Nat → List Nat → List Nat → List Nat → Option (Option (List Nat))
  | 0, _, _, _ => none
  | fuel + 1, q, dte, pfe =>
    match q.getLast? with
    | none => some none
    | some current => do
        let ns ← g.data[current]?
        match ← phaseBScan g distance dts pfs current ns q.dropLast dte pfe with
        | .found p => some (some p)
        | .cont q' dte' pfe' => phaseBLoop g distance dts pfs fuel q' dte' pfe'

/-- Fuel budget for the phase-B loop: an over-approximation of the number
of queue pops (each vertex is accepted at most `distance + 2` times, see
the invariant lemmas below for the instances the theorems need). -/
def phaseBFuel (g : Graph) (length : Nat) : Nat :=
  g.size * (g.size + length + 3) + g.size + 3

/-- `path.rs::fixed_length_bfs` (the `fixedLengthSearch` of the spec). -/
def fixed_length_bfs (g : Graph) (start endv length : Nat) :
    Option (Option (List Nat)) := do
  let distance ← csub length 1
  let pfs0 := List.replicate g.size USIZE_MAX
  let dts0 := List.replicate g.size USIZE_MAX
  let pfe0 := List.replicate g.size USIZE_MAX
  let dte0 := List.replicate g.size USIZE_MAX
  let dts1 ← setN dts0 start 0
  let (dts, pfs) ← phaseALoop g (g.size + 2) [start] dts1 pfs0
  let dte1 ← setN dte0 endv 0
  phaseBLoop g distance dts pfs (phaseBFuel g length) [endv] dte1 pfe0

/-- Result of one neighbor scan of `path.rs::bfs`: either `end` was just
discovered (the Rust `return true`, carrying the predecessor array), or
the scan finished with updated state. -/
inductive ScanRes where
  | found : List Nat → ScanRes
  | cont : List Nat → List Nat → List Nat → ScanRes
deriving Repr, DecidableEq

/-- The neighbor scan of `path.rs::bfs`: first-visit discovery with an
early `return true` as soon as the discovered vertex is `end`. -/
def bfsScan (endv current : Nat) :
    List Nat → List Nat → List Nat → List Nat → Option ScanRes
  | [], q, dist, pred => some (.cont q dist pred)
  | v :: rest, q, dist, pred => do
      let dv ← dist[v]?
      if dv = USIZE_MAX then do
        let dc ← dist[current]?
        let d1 ← cadd dc 1
        let dist' ← setN dist v d1
        let pred' ← setN pred v current
        if v = endv then some (.found pred')
        else bfsScan endv current rest (q ++ [v]) dist' pred'
      else bfsScan endv current rest q dist pred

/-- The FIFO loop of `path.rs::bfs`. -/
def bfsLoop (g : Graph) (endv : Nat) :
    Nat → List Nat → List Nat → List Nat → Option (Bool × List Nat)
  | 0, _, _, _ => none
  | _ + 1, [], _, pred => some (false, pred)
  | fuel + 1, current :: q, dist, pred => do
      let ns ← g.data[current]?
      match ← bfsScan endv current ns q dist pred with
      | .found pred' => some (true, pred')
      | .cont q' dist' pred' => bfsLoop g endv fuel q' dist' pred'

/-- `path.rs::bfs`: seeds the distance array and queue with `start` and
runs the loop; returns the `bool` result and the predecessor array it
filled in. -/
def bfs (g : Graph) (start endv : Nat) (pred : List Nat) :
    Option (Bool × List Nat) := do
  let dist0 := List.replicate g.size USIZE_MAX
  let dist1 ← setN dist0 start 0
  bfsLoop g endv (g.size + 2) [start] dist1 pred

/-- `path.rs::shortest_path`: BFS, then walk the predecessor chain back
from `end` and reverse. -/
def shortest_path (g : Graph) (start endv : Nat) :
    Option (Option (List Nat)) := do
  let pred0 := List.replicate g.size USIZE_MAX
  let (found, pred) ← bfs g start endv pred0
  if found then do
    let path ← predWalk pred (g.size + 1) endv [endv]
    some (some path.reverse)
  else some none

/-- `path.rs::equal_paths`: zip-truncated pointwise comparison (two lists
of different lengths compare equal when one is a prefix of the other). -/
def equal_paths (a b : List Nat) : Bool :=
  (a.zip b).all fun p => p.1 == p.2

/-- Accumulator of Rust's `iter().enumerate().min_by_key(|(_, p)| p.len())`
(the first minimum wins, per the documented `min_by_key` tie-breaking). -/
def minByLenAux : List (List Nat) → List Nat → Nat → Nat → Nat × List Nat
  | [], best, bestIdx, _ => (bestIdx, best)
  | c :: rest, best, bestIdx, i =>
      if c.length < best.length then minByLenAux rest c i (i + 1)
      else minByLenAux rest best bestIdx (i + 1)

/-- Index and value of the first minimum-length candidate. -/
def minByLen (cs : List (List Nat)) : Option (Nat × List Nat) :=
  match cs with
  | [] => none
  | c :: rest => some (minByLenAux rest c 0 1)

/-- The edge-removal loop of `yen`: for each previously accepted path that
shares the root prefix, remove (when present) the edge continuing past
the root, recording it. -/
def yenRemoveLoop (i : Nat) (root : List Nat) :
    List (List Nat) → Graph → List (Nat × Nat) →
    Option (Graph × List (Nat × Nat))
  | [], g, edges => some (g, edges)
  | p :: rest, g, edges =>
      if i + 1 < p.length then
        if equal_paths root (p.take i) then do
          let pi ← p[i]?
          let pi1 ← p[i + 1]?
          let he ← has_edge g pi pi1
          if he then do
            let g' ← remove_edge g pi pi1
            yenRemoveLoop i root rest g' (edges ++ [(pi, pi1)])
          else yenRemoveLoop i root rest g edges
        else yenRemoveLoop i root rest g edges
      else yenRemoveLoop i root rest g edges

/-- The root-vertex popping loop of `yen`: `pop_edges` every root vertex
except the spur node, recording the snapshots in order. -/
def yenPopLoop (spur : Nat) :
    List Nat → Graph → List (List Nat) → Option (Graph × List (List Nat))
  | [], g, nodes => some (g, nodes)
  | node :: rest, g, nodes =>
      if node ≠ spur then do
        let r ← pop_edges g node
        yenPopLoop spur rest r.1 (nodes ++ [r.2])
      else yenPopLoop spur rest g nodes

/-- The edge-restoration loop of `yen`: re-add each recorded edge. -/
def yenAddEdgesLoop : List (Nat × Nat) → Graph → Option Graph
  | [], g => some g
  | e :: rest, g => do
      let g' ← add_edge g e.1 e.2
      yenAddEdgesLoop rest g'

/-- The node-restoration loop of `yen`, faithfully reproducing
`for (node, neighbors) in nodes.iter().enumerate() { graph.add_edges(node, neighbors) }`:
the first component is the *enumeration index*, not the popped vertex. -/
def yenRestoreNodesLoop : List (List Nat) → Nat → Graph → Option Graph
  | [], _, g => some g
  | ns :: rest, idx, g => do
      let g' ← add_edges g idx ns
      yenRestoreNodesLoop rest (idx + 1) g'

/-- The spur-index loop of `yen` (index `i` over the previously accepted
path): remove shared-root edges, pop root vertices, compute the spur
shortest path, and either record a candidate and restore, or — when the
spur search finds nothing — continue *without restoring* (as the Rust
code does: the restoration statements live inside the `if let Some`). -/
def yenSpurLoop (endv : Nat) (prev : List Nat) (paths : List (List Nat)) :
    Nat → Nat → Graph → List (List Nat) →
    Option (Graph × List (List Nat))
  | _, 0, g, cs => some (g, cs)
  | i, rem + 1, g, cs => do
      let spur ← prev[i]?
      let root := prev.take i
      let (g1, edges) ← yenRemoveLoop i root paths g []
      let (g2, nodes) ← yenPopLoop spur root g1 []
      match ← shortest_path g2 spur endv with
      | none => yenSpurLoop endv prev paths (i + 1) rem g2 cs
      | some spurPath => do
          let total := root ++ spurPath
          let cs' := if cs.any fun c => equal_paths c total then cs
                     else cs ++ [total]
          let g3 ← yenAddEdgesLoop edges g2
          let g4 ← yenRestoreNodesLoop nodes 0 g3
          yenSpurLoop endv prev paths (i + 1) rem g4 cs'

/-- The candidate-selection step at the end of each `yen` round. -/
inductive YenStep where
  | done : Option (List Nat) → YenStep
  | next : List (List Nat) → List (List Nat) → YenStep
deriving Repr, DecidableEq

/-- Selection at the end of a `yen` round: no candidate → `break` (the
call falls through to `None`); minimum length equal to the target →
return it; greater → return `None`; smaller → move it into `paths` and
`swap_remove` it from the pool. -/
def yenSelect (length : Nat) (paths cs : List (List Nat)) : YenStep :=
  match minByLen cs with
  | none => .done none
  | some (index, best) =>
      if best.length = length then .done (some best)
      else if best.length > length then .done none
      else .next (paths ++ [best]) (swapRemove cs index)

/-- The outer `for k in 1..=graph.size - length` loop of `yen`.  The
result carries the final graph (to observe the mutation frame) and the
final `paths` vector (the accepted paths, to observe acceptance order). -/
def yenOuterLoop (endv length : Nat) :
    Nat → Nat → Graph → List (List Nat) → List (List Nat) →
    Option (Option (List Nat) × Graph × List (List Nat))
  | _, 0, g, paths, _ => some (none, g, paths)
  | k, rem + 1, g, paths, cs => do
      let prev ← paths[k - 1]?
      let iters ← csub prev.length 1
      let (g', cs') ← yenSpurLoop endv prev paths 0 iters g cs
      match yenSelect length paths cs' with
      | .done r => some (r, g', paths)
      | .next paths' cs'' => yenOuterLoop endv length (k + 1) rem g' paths' cs''

/-- `path.rs::yen`, returning the Rust result together with the final
graph state and the accepted-paths vector. -/
def yenFull (g : Graph) (start endv length : Nat) :
    Option (Option (List Nat) × Graph × List (List Nat)) := do
  match ← shortest_path g start endv with
  | none => some (none, g, [])
  | some seed => do
      let rounds ← csub g.size length
      yenOuterLoop endv length 1 rounds g [seed] []

/-- `path.rs::yen`: the returned value and the graph after the call. -/
def yen (g : Graph) (start endv length : Nat) :
    Option (Option (List Nat) × Graph) :=
  (yenFull g start endv length).map fun r => (r.1, r.2.1)

/-- The accepted-paths vector (`paths`) at the moment `yen` returns. -/
def yenPaths (g : Graph) (start endv length : Nat) :
    Option (List (List Nat)) :=
  (yenFull g start endv length).map fun r => r.2.2

/-! ## Specification-side notions -/

/-- Boolean edge test used by specification predicates. -/
def hasEdgeB (g : Graph) (a b : Nat) : Bool :=
  (g.adj a).contains b

/-- Every consecutive pair of the list is an edge of `g`. -/
def consecEdges (g : Graph) : List Nat → Bool
  | [] => true
  | [_] => true
  | a :: b :: rest => hasEdgeB g a b && consecEdges g (b :: rest)

/-- The spec's notion of a valid solution for a search
`(start, end, length)`: vertex count equals the requested length, no
duplicate vertex, consecutive vertices joined by edges, endpoints right. -/
def validPath (g : Graph) (start endv length : Nat) (p : List Nat) : Prop :=
  p.length = length ∧ p.Nodup ∧ consecEdges g p = true ∧
  p.head? = some start ∧ p.getLast? = some endv

instance (g : Graph) (start endv length : Nat) (p : List Nat) :
    Decidable (validPath g start endv length p) := by
  unfold validPath; infer_instance

/-- `hasWalkB g u v n`: there is a walk of exactly `n` edges from `u` to
`v` along the adjacency lists. -/
def hasWalkB (g : Graph) (u v : Nat) : Nat → Bool
  | 0 => u == v
  | n + 1 => (g.adj u).any fun w => hasWalkB g w v n

/-- The multiset of directed adjacency entries of a graph (each undirected
edge added by `add_edge` contributes both orientations). -/
def edgeList (g : Graph) : List (Nat × Nat) :=
  (List.range g.size).flatMap fun a => (g.adj a).map fun b => (a, b)

/-- Multiset equality of two lists of pairs, by counting. -/
def msEqB (l1 l2 : List (Nat × Nat)) : Bool :=
  (l1 ++ l2).all fun x => l1.count x == l2.count x

/-- The list is non-decreasing (each element at most its successor). -/
def nondecB (l : List Nat) : Bool :=
  (l.zip l.tail).all fun p => p.1 ≤ p.2

/-- Value of a distance/predecessor array at `x` (the sentinel for an
out-of-range index, matching the arrays' initialisation). -/
def entry (l : List Nat) (x : Nat) : Nat :=
  (l[x]?).getD USIZE_MAX

/-- Bounded boolean check of the symmetry invariant (equivalent to
`Graph.Symm` on well-formed graphs). -/
def symmB (g : Graph) : Bool :=
  (List.range g.size).all fun a =>
    (List.range g.size).all fun b => (g.adj a).count b == (g.adj b).count a

/-- The standing invariant of the `path.rs::bfs` state on arrays
`(dist, pred)` for a source `s`: array lengths, the source pinned at
distance `0` with no predecessor, the budget bound, soundness (every
finite entry is witnessed by a walk of that exact length), validity of the
predecessor links, and exactness (every finite entry is a lower bound on
every walk). -/
def BfsInv (g : Graph) (s : Nat) (dist pred : List Nat) : Prop :=
  dist.length = g.size ∧ pred.length = g.size ∧
  entry dist s = 0 ∧ entry pred s = USIZE_MAX ∧
  (∀ x, entry dist x = 0 → x = s) ∧
  (∀ x, entry dist x ≠ USIZE_MAX →
    entry dist x + dist.count USIZE_MAX ≤ g.size) ∧
  (∀ x, entry dist x ≠ USIZE_MAX → hasWalkB g s x (entry dist x) = true) ∧
  (∀ x, x ≠ s → entry dist x ≠ USIZE_MAX →
    entry pred x < g.size ∧ entry dist (entry pred x) ≠ USIZE_MAX ∧
    x ∈ g.adj (entry pred x) ∧
    entry dist x = entry dist (entry pred x) + 1) ∧
  (∀ x n, entry dist x ≠ USIZE_MAX → hasWalkB g s x n = true →
    entry dist x ≤ n)

/-! ## Concrete graphs used by counterexamples and failing inputs

Adjacency lists are exactly what `Graph::new` + the listed `add_edge`
calls produce (push order). -/

/-- Vertices `{0,1,2,3}`, edges `0-1, 1-2, 2-3, 0-3` (scenario 1 of the
spec). -/
def cyc4 : Graph := ⟨4, [[1, 3], [0, 2], [1, 3], [2, 0]]⟩

/-- Vertices `{0,1,2}` with the single edge `1-2`; vertex `0` isolated. -/
def disc3 : Graph := ⟨3, [[], [2], [1]]⟩

/-- The one-vertex graph with no edges. -/
def triv1 : Graph := ⟨1, [[]]⟩

/-- The 5-cycle `0-1-2-3-4-0` (scenario 5 of the spec). -/
def cyc5 : Graph := ⟨5, [[1, 4], [0, 2], [1, 3], [2, 4], [3, 0]]⟩

/-- Seven vertices, edges
`0-2, 4-6, 2-5, 1-6, 3-6, 0-3, 2-4, 2-3, 1-4`. -/
def yenG7 : Graph :=
  ⟨7, [[2, 3], [6, 4], [0, 5, 4, 3], [6, 0, 2], [6, 2, 1], [2], [4, 1, 3]]⟩

/-- One vertex with a self-loop, built by `add_edge 0 0` (which pushes two
entries). -/
def loop1 : Graph := ⟨1, [[0, 0]]⟩

/-- C1: the claim "every path returned by `fixedLengthSearch` or `yen` is
a valid solution" is refuted by the code: on scenario 1 of the spec
(`cyc4`, start 0, end 2, length 3) `fixed_length_bfs` returns `[0, 2, 2]`,
which repeats vertex 2, uses the non-edge `0-2`, and would fail the
validity assertions in `main.rs`.  (The reconstruction seeds the path
with the loop variable `current` instead of `*vertex`.) -/
theorem C1_fls_returns_invalid_path :
    fixed_length_bfs cyc4 0 2 3 = some (some [0, 2, 2]) ∧
    ¬ validPath cyc4 0 2 3 [0, 2, 2] := by
  decide

/-- C2: the claim that `yen` restores the graph's edge multiset on every
exit is refuted by the code: on the 5-cycle with `yen 0 2 3`, the call
returns `NotFound` normally but the graph has lost edges (the restoration
block is skipped when a spur search finds nothing, and the node
restoration loop re-adds edges at the enumeration index rather than at
the popped vertex). -/
theorem C2_yen_does_not_restore_graph :
    (yen cyc5 0 2 3).map (fun r => r.1) = some none ∧
    (yen cyc5 0 2 3).map (fun r => msEqB (edgeList cyc5) (edgeList r.2)) =
      some false := by
  decide

/-- C3: the claim that `fixedLengthSearch` returns `NotFound` whenever
`start` and `end` are disconnected is refuted by the code: on `disc3`
(vertex 0 isolated, edge `1-2`) the code's own `shortest_path 0 1` says
"no path", yet `fixed_length_bfs 0 1 1` faults (the success test adds
`usize::MAX + 1`, an overflow panic in debug builds; a wrapping release
build even returns the invalid path `[1, 1]`) instead of returning
`NotFound`. -/
theorem C3_disconnected_faults_instead_of_notfound :
    shortest_path disc3 0 1 = some none ∧
    fixed_length_bfs disc3 0 1 1 = none := by
  decide

/-- C4 (counterexample): `fixedLengthSearch(g, v, v, 1)` does not return
the single-vertex path `[v]`; there is no start-equals-end shortcut in the
code, and the general search returns `NotFound`. -/
theorem C4_counterexample :
    fixed_length_bfs triv1 0 0 1 = some none ∧
    fixed_length_bfs triv1 0 0 1 ≠ some (some [0]) := by
  decide

/-- C5 (counterexample): the vertex counts of the paths accepted during
one `yen` call need not be non-decreasing: on `yenG7` with
`yen 0 1 5`, the accepted paths are `[0,2,4,1]`, `[0,3,6,1]`, `[0,3,1]`
with lengths `4, 4, 3`. -/
theorem C5_counterexample :
    (yenPaths yenG7 0 1 5).map (fun ps => ps.map List.length) =
      some [4, 4, 3] ∧
    nondecB [4, 4, 3] = false := by
  decide

/-- C7 (counterexample): with `start = end` the two vertices are trivially
connected (a zero-edge walk exists), yet `shortest_path` returns
`NotFound`, so the claim fails as stated for `start = end`. -/
theorem C7_counterexample :
    hasWalkB triv1 0 0 0 = true ∧ shortest_path triv1 0 0 = some none := by
  decide

/-- C8 (counterexample): on a graph with a self-loop (`add_edge 0 0`,
which is symmetric), `pop_edges 0` followed by `add_edges` of the
returned snapshot does not restore the edge multiset: the snapshot
holds vertex 0 twice and each `add_edge 0 0` pushes two entries, so the
adjacency list doubles from `[0, 0]` to `[0, 0, 0, 0]`. -/
theorem C8_counterexample :
    pop_edges loop1 0 = some (⟨1, [[]]⟩, [0, 0]) ∧
    add_edges ⟨1, [[]]⟩ 0 [0, 0] = some ⟨1, [[0, 0, 0, 0]]⟩ ∧
    msEqB (edgeList loop1) (edgeList ⟨1, [[0, 0, 0, 0]]⟩) = false := by
  decide

/-! ## Helper lemmas: `position` and `swapRemove` -/

/-- `position` misses exactly when no element satisfies the predicate. -/
theorem position_none_of {p : Nat → Bool} {l : List Nat}
    (h : ∀ x ∈ l, p x = false) : position p l = none := by
  induction l with
  | nil => rfl
  | cons x rest ih =>
      have hx := h x (by simp)
      simp only [position, hx, Bool.false_eq_true, if_false]
      rw [ih fun y hy => h y (by simp [hy])]
      rfl

/-- A successful `position` points at an element satisfying the
predicate. -/
theorem position_some_spec {p : Nat → Bool} :
    ∀ {l : List Nat} {i : Nat}, position p l = some i →
      ∃ y, l[i]? = some y ∧ p y = true := by
  intro l
  induction l with
  | nil => intro i h; simp [position] at h
  | cons x rest ih =>
      intro i h
      by_cases hx : p x
      · simp only [position, hx, if_true, Option.some.injEq] at h
        subst h
        exact ⟨x, by simp, hx⟩
      · simp only [position, hx, Bool.false_eq_true, if_false,
          Option.map_eq_some'] at h
        obtain ⟨j, hj, rfl⟩ := h
        obtain ⟨y, hy, hpy⟩ := ih hj
        exact ⟨y, by simpa using hy, hpy⟩

/-- If some element satisfies the predicate, `position` succeeds. -/
theorem position_isSome_of {p : Nat → Bool} {l : List Nat}
    (h : ∃ x ∈ l, p x = true) : ∃ i, position p l = some i := by
  induction l with
  | nil => simp at h
  | cons x rest ih =>
      by_cases hx : p x
      · exact ⟨0, by simp [position, hx]⟩
      · obtain ⟨y, hy, hpy⟩ := h
        rcases List.mem_cons.1 hy with rfl | hy'
        · exact absurd hpy (by simpa using hx)
        · obtain ⟨i, hi⟩ := ih ⟨y, hy', hpy⟩
          exact ⟨i + 1, by simp [position, hx, hi]⟩

/-- A successful `position (· == b)` points at an occurrence of `b`. -/
theorem position_beq_spec {b : Nat} {l : List Nat} {i : Nat}
    (h : position (· == b) l = some i) : l[i]? = some b := by
  obtain ⟨y, hy, hpy⟩ := position_some_spec h
  have : y = b := by simpa using hpy
  subst this
  exact hy

/-- `swapRemove` at a valid index is a permutation of `eraseIdx`. -/
theorem swapRemove_perm {α : Type} (l : List α) (i : Nat)
    (h : i < l.length) : (swapRemove l i).Perm (l.eraseIdx i) := by
  have hdec : l = l.take i ++ l[i] :: l.drop (i + 1) := by
    conv_lhs => rw [← l.take_append_drop i, List.drop_eq_getElem_cons h]
  rcases List.eq_nil_or_concat (l.drop (i + 1)) with hB | ⟨B', b, hB'⟩
  · have hl : l = l.take i ++ [l[i]] := by
      conv_lhs => rw [hdec]
      rw [hB]
    have hlast : l.getLast? = some l[i] := by
      conv_lhs => rw [hl]
      exact List.getLast?_concat _
    have hset : l.set i l[i] = l := by
      rw [List.set_eq_take_cons_drop _ h]
      exact hdec.symm
    simp only [swapRemove, hlast]
    rw [hset, List.eraseIdx_eq_take_drop_succ, hB, List.append_nil]
    conv_lhs => rw [hl]
    rw [List.dropLast_concat]
  · have hB : l.drop (i + 1) = B' ++ [b] := by
      rw [hB', List.concat_eq_append]
    have hl2 : l = (l.take i ++ l[i] :: B') ++ [b] := by
      conv_lhs => rw [hdec]
      rw [hB]
      simp
    have hlast : l.getLast? = some b := by
      conv_lhs => rw [hl2]
      exact List.getLast?_concat _
    have hset : l.set i b = l.take i ++ b :: l.drop (i + 1) :=
      List.set_eq_take_cons_drop b h
    simp only [swapRemove, hlast]
    rw [hset, hB, List.eraseIdx_eq_take_drop_succ, hB]
    rw [show l.take i ++ b :: (B' ++ [b]) = (l.take i ++ b :: B') ++ [b] by
      simp]
    rw [List.dropLast_concat]
    refine List.Perm.trans List.perm_middle ?_
    refine List.Perm.trans (List.perm_append_singleton b (l.take i ++ B')).symm ?_
    rw [List.append_assoc]

/-- A list is a permutation of its `i`-th element consed onto
`eraseIdx i`. -/
theorem perm_getElem_cons_eraseIdx {α : Type} (l : List α) (i : Nat)
    (h : i < l.length) : l.Perm (l[i] :: l.eraseIdx i) := by
  have hdec : l = l.take i ++ l[i] :: l.drop (i + 1) := by
    conv_lhs => rw [← l.take_append_drop i, List.drop_eq_getElem_cons h]
  rw [List.eraseIdx_eq_take_drop_succ]
  conv_lhs => rw [hdec]
  exact List.perm_middle

/-- Count bookkeeping for `swapRemove` at an occurrence of `b`: one `b`
disappears, counts of everything else are unchanged. -/
theorem count_swapRemove {l : List Nat} {i b : Nat}
    (h : i < l.length) (hb : l[i]? = some b) (y : Nat) :
    (swapRemove l i).count y = l.count y - (if b = y then 1 else 0) := by
  have hbi : l[i] = b := by
    obtain ⟨_, h2⟩ := List.getElem?_eq_some_iff.1 hb
    exact h2
  have h1 := (swapRemove_perm l i h).count_eq y
  have h2 := (perm_getElem_cons_eraseIdx l i h).count_eq y
  rw [hbi, List.count_cons] at h2
  rw [h1]
  by_cases hby : b = y
  · subst hby
    rw [if_pos rfl]
    simp only [beq_self_eq_true, if_true] at h2
    omega
  · rw [if_neg hby]
    have hf : (b == y) = false := by simp [hby]
    rw [hf] at h2
    simp only [Bool.false_eq_true, if_false, Nat.add_zero] at h2
    omega

/-- `swapRemove` at a valid index shortens the list by one. -/
theorem length_swapRemove {α : Type} {l : List α} {i : Nat}
    (h : i < l.length) : (swapRemove l i).length = l.length - 1 := by
  rw [(swapRemove_perm l i h).length_eq, List.length_eraseIdx, if_pos h]

/-! ## Graph mutation bookkeeping -/

/-- `adj` through `row`. -/
theorem adj_eq_row (g : Graph) (v : Nat) : g.adj v = row g.data v := rfl

/-- `row` after `set` at an in-range index. -/
theorem row_set {d : List (List Nat)} {i : Nat} (hi : i < d.length)
    (l : List Nat) (u : Nat) :
    row (d.set i l) u = if i = u then l else row d u := by
  unfold row
  rw [List.getElem?_set]
  by_cases h : i = u
  · subst h
    simp [hi]
  · simp [h]

/-- Appending one element changes exactly that element's count. -/
theorem count_append_singleton (l : List Nat) (a y : Nat) :
    (l ++ [a]).count y = l.count y + if a = y then 1 else 0 := by
  simp [List.count_append, List.count_cons, beq_iff_eq]

/-- Inversion of a successful `add_edge`: indices are in range and the
counts change by exactly the two pushed entries. -/
theorem add_edge_some_counts {g g' : Graph} {a b : Nat}
    (h : add_edge g a b = some g') :
    g'.size = g.size ∧ g'.data.length = g.data.length ∧
    a < g.data.length ∧ b < g.data.length ∧
    ∀ x y, (g'.adj x).count y =
      (g.adj x).count y + (if x = a ∧ y = b then 1 else 0) +
        (if x = b ∧ y = a then 1 else 0) := by
  simp only [add_edge, Option.bind_eq_bind, Option.bind_eq_some,
    Option.some.injEq] at h
  obtain ⟨la, hla, lb, hlb, hg⟩ := h
  subst hg
  have ha : a < g.data.length := (List.getElem?_eq_some_iff.1 hla).1
  have hb : b < g.data.length := by
    have := (List.getElem?_eq_some_iff.1 hlb).1
    simpa using this
  have hlaval : row g.data a = la := by unfold row; rw [hla]; rfl
  refine ⟨rfl, by simp, ha, hb, ?_⟩
  intro x y
  by_cases hab : a = b
  · subst hab
    have hlbval : lb = la ++ [a] := by
      rw [List.getElem?_set_self (by simpa using ha)] at hlb
      exact (Option.some.inj hlb).symm
    subst hlbval
    show (row ((g.data.set a (la ++ [a])).set a (la ++ [a] ++ [a])) x).count y
      = _
    rw [List.set_set, row_set ha]
    by_cases hx : a = x
    · subst hx
      rw [if_pos rfl, count_append_singleton, count_append_singleton,
        adj_eq_row, hlaval]
      by_cases hy : y = a
      · simp [hy]
      · have hay : ¬ a = y := fun hc => hy hc.symm
        simp [hay, hy]
    · have hx' : ¬ x = a := fun hc => hx hc.symm
      rw [if_neg hx, adj_eq_row]
      simp [hx']
  · have hlbval : lb = row g.data b := by
      rw [List.getElem?_set_ne hab] at hlb
      unfold row
      rw [hlb]
      rfl
    subst hlbval
    show (row ((g.data.set a (la ++ [b])).set b (row g.data b ++ [a])) x).count y
      = _
    rw [row_set (by simpa using hb), row_set ha]
    by_cases hxb : b = x
    · subst hxb
      have h1 : ¬ b = a := fun hc => hab hc.symm
      rw [if_pos rfl, count_append_singleton, adj_eq_row]
      by_cases hy : y = a
      · simp [hy, h1]
      · have hay : ¬ a = y := fun hc => hy hc.symm
        simp [hay, hy, h1]
    · rw [if_neg hxb]
      by_cases hxa : a = x
      · subst hxa
        rw [if_pos rfl, count_append_singleton, adj_eq_row, hlaval]
        by_cases hy : y = b
        · simp [hy, hab]
        · have hby : ¬ b = y := fun hc => hy hc.symm
          simp [hby, hy, hab]
      · have h1 : ¬ x = a := fun hc => hxa hc.symm
        have h2 : ¬ x = b := fun hc => hxb hc.symm
        rw [if_neg hxa, adj_eq_row]
        simp [h1, h2]

/-- `add_edge` succeeds on in-range endpoints. -/
theorem add_edge_total {g : Graph} {a b : Nat}
    (ha : a < g.data.length) (hb : b < g.data.length) :
    ∃ g', add_edge g a b = some g' := by
  simp only [add_edge, Option.bind_eq_bind]
  rw [List.getElem?_eq_getElem ha, Option.some_bind]
  have hb' : b < (g.data.set a (g.data[a] ++ [b])).length := by simpa using hb
  rw [List.getElem?_eq_getElem hb', Option.some_bind]
  exact ⟨_, rfl⟩

/-- A member of an adjacency list certifies the index is in range and the
row is really stored there. -/
theorem adj_mem_inv {g : Graph} {a x : Nat} (h : x ∈ g.adj a) :
    a < g.data.length ∧ g.data[a]? = some (g.adj a) := by
  unfold Graph.adj at h ⊢
  cases hga : g.data[a]? with
  | none => rw [hga] at h; simp at h
  | some la => exact ⟨(List.getElem?_eq_some_iff.1 hga).1, rfl⟩

/-- Inversion of a successful `remove_edge`: the removed entries were
present and the counts drop by exactly one on each side (two when
`a = b`). -/
theorem remove_edge_some_counts {g g' : Graph} {a b : Nat}
    (h : remove_edge g a b = some g') :
    g'.size = g.size ∧ g'.data.length = g.data.length ∧
    a < g.data.length ∧ b < g.data.length ∧
    b ∈ g.adj a ∧ (a ≠ b → a ∈ g.adj b) ∧ (a = b → 2 ≤ (g.adj a).count a) ∧
    ∀ x y, (g'.adj x).count y =
      (g.adj x).count y - (if x = a ∧ y = b then 1 else 0) -
        (if x = b ∧ y = a then 1 else 0) := by
  simp only [remove_edge, Option.bind_eq_bind, Option.bind_eq_some,
    Option.some.injEq] at h
  obtain ⟨la, hla, i, hi, lb, hlb, j, hj, hg⟩ := h
  subst hg
  have ha : a < g.data.length := (List.getElem?_eq_some_iff.1 hla).1
  have hlaval : row g.data a = la := by unfold row; rw [hla]; rfl
  have hib : la[i]? = some b := position_beq_spec hi
  have hilt : i < la.length := (List.getElem?_eq_some_iff.1 hib).1
  have hbmem : b ∈ la := by
    rw [List.mem_iff_getElem?]
    exact ⟨i, hib⟩
  have hcla : ∀ y, (swapRemove la i).count y =
      la.count y - (if b = y then 1 else 0) := count_swapRemove hilt hib
  have hb : b < g.data.length := by
    have := (List.getElem?_eq_some_iff.1 hlb).1
    simpa using this
  have hja : lb[j]? = some a := position_beq_spec hj
  have hjlt : j < lb.length := (List.getElem?_eq_some_iff.1 hja).1
  have hclb : ∀ y, (swapRemove lb j).count y =
      lb.count y - (if a = y then 1 else 0) := count_swapRemove hjlt hja
  have hamem : a ∈ lb := by
    rw [List.mem_iff_getElem?]
    exact ⟨j, hja⟩
  by_cases hab : a = b
  · subst hab
    have hlbval : lb = swapRemove la i := by
      rw [List.getElem?_set_self (by simpa using ha)] at hlb
      exact (Option.some.inj hlb).symm
    subst hlbval
    have h2 : 2 ≤ la.count a := by
      have h1 : 0 < (swapRemove la i).count a := List.count_pos_iff.2 hamem
      have := hcla a
      rw [if_pos rfl] at this
      omega
    refine ⟨rfl, by simp, ha, ha, by rw [adj_eq_row, hlaval]; exact hbmem,
      fun hc => absurd rfl hc, fun _ => by rw [adj_eq_row, hlaval]; exact h2,
      ?_⟩
    intro x y
    show (row ((g.data.set a (swapRemove la i)).set a
      (swapRemove (swapRemove la i) j)) x).count y = _
    rw [List.set_set, row_set ha]
    by_cases hx : a = x
    · have hrowx : row g.data x = la := by rw [← hx]; exact hlaval
      rw [if_pos hx, adj_eq_row, hrowx]
      simp only [hclb, hcla, show x = a from hx.symm]
      by_cases hy : y = a
      · simp only [hy, eq_self_iff_true, true_and, and_true, if_true] <;> omega
      · have h1 : ¬ a = y := fun hc => hy hc.symm
        simp only [hy, h1, and_false, false_and, if_false] <;> omega
    · have hx' : ¬ x = a := fun hc => hx hc.symm
      rw [if_neg hx, adj_eq_row]
      simp only [hx', false_and, if_false] <;> omega
  · have hlbval : lb = row g.data b := by
      rw [List.getElem?_set_ne hab] at hlb
      unfold row
      rw [hlb]
      rfl
    refine ⟨rfl, by simp, ha, hb, by rw [adj_eq_row, hlaval]; exact hbmem,
      fun _ => by rw [adj_eq_row, ← hlbval]; exact hamem,
      fun hc => absurd hc hab, ?_⟩
    intro x y
    show (row ((g.data.set a (swapRemove la i)).set b (swapRemove lb j))
      x).count y = _
    rw [row_set (by simpa using hb), row_set ha]
    by_cases hxb : b = x
    · have hrowx : row g.data x = lb := by rw [← hxb]; exact hlbval.symm
      have h1 : ¬ x = a := fun hc => hab (hxb.trans hc).symm
      have hba : ¬ b = a := fun hc => hab hc.symm
      rw [if_pos hxb, adj_eq_row, hrowx]
      simp only [hclb, show x = b from hxb.symm, h1, hba]
      by_cases hy : y = a
      · simp only [hy, hba, eq_self_iff_true, true_and, and_true, if_true,
          false_and, and_false, if_false] <;> omega
      · have h2 : ¬ a = y := fun hc => hy hc.symm
        simp only [hy, h2, hba, and_false, false_and, if_false] <;> omega
    · rw [if_neg hxb]
      by_cases hxa : a = x
      · have hrowx : row g.data x = la := by rw [← hxa]; exact hlaval
        have h1 : ¬ x = b := fun hc => hxb hc.symm
        rw [if_pos hxa, adj_eq_row, hrowx]
        simp only [hcla, show x = a from hxa.symm, h1, hab]
        by_cases hy : y = b
        · simp only [hy, hab, eq_self_iff_true, true_and, and_true, if_true,
            false_and, and_false, if_false] <;> omega
        · have h2 : ¬ b = y := fun hc => hy hc.symm
          simp only [hy, h2, hab, and_false, false_and, if_false] <;> omega
      · have h1 : ¬ x = a := fun hc => hxa hc.symm
        have h2 : ¬ x = b := fun hc => hxb hc.symm
        rw [if_neg hxa, adj_eq_row]
        simp only [h1, h2, false_and, if_false] <;> omega

/-- `remove_edge` succeeds when both directed entries are present
(`a ≠ b`). -/
theorem remove_edge_total_ne {g : Graph} {a b : Nat} (hab : a ≠ b)
    (hb : b ∈ g.adj a) (ha : a ∈ g.adj b) :
    ∃ g', remove_edge g a b = some g' := by
  obtain ⟨halt, hla⟩ := adj_mem_inv hb
  obtain ⟨hblt, hlb⟩ := adj_mem_inv ha
  obtain ⟨i, hi⟩ := @position_isSome_of (fun x => x == b) _ ⟨b, hb, by simp⟩
  obtain ⟨j, hj⟩ := @position_isSome_of (fun x => x == a) _ ⟨a, ha, by simp⟩
  have heq : remove_edge g a b = some ⟨g.size,
      (g.data.set a (swapRemove (g.adj a) i)).set b
        (swapRemove (g.adj b) j)⟩ := by
    simp only [remove_edge, Option.bind_eq_bind, hla, Option.some_bind, hi,
      List.getElem?_set_ne hab, hlb, hj]
  exact ⟨_, heq⟩

/-- `remove_edge g a a` succeeds when `a`'s list holds at least two
occurrences of `a`. -/
theorem remove_edge_total_self {g : Graph} {a : Nat}
    (h2 : 2 ≤ (g.adj a).count a) : ∃ g', remove_edge g a a = some g' := by
  have hmem : a ∈ g.adj a := List.count_pos_iff.1 (by omega)
  obtain ⟨halt, hla⟩ := adj_mem_inv hmem
  obtain ⟨i, hi⟩ := @position_isSome_of (fun x => x == a) _ ⟨a, hmem, by simp⟩
  have hib : (g.adj a)[i]? = some a := position_beq_spec hi
  have hilt : i < (g.adj a).length := (List.getElem?_eq_some_iff.1 hib).1
  have hc : 0 < (swapRemove (g.adj a) i).count a := by
    rw [count_swapRemove hilt hib, if_pos rfl]
    omega
  obtain ⟨j, hj⟩ := @position_isSome_of (fun x => x == a) _
    ⟨a, List.count_pos_iff.1 hc, by simp⟩
  have heq : remove_edge g a a = some ⟨g.size,
      (g.data.set a (swapRemove (g.adj a) i)).set a
        (swapRemove (swapRemove (g.adj a) i) j)⟩ := by
    have hget : (g.data.set a (swapRemove (g.adj a) i))[a]?
        = some (swapRemove (g.adj a) i) :=
      List.getElem?_set_self (by simpa using halt)
    simp only [remove_edge, Option.bind_eq_bind, hla, Option.some_bind, hi,
      hget, hj]
  exact ⟨_, heq⟩

/-- Inversion of a successful `popLoop`: every processed vertex is in
range, the snapshot multiplicities were available, and each row loses
exactly its processed multiplicity of `vertex`. -/
theorem popLoop_some_spec {vertex : Nat} :
    ∀ (ns : List Nat) (d d' : List (List Nat)),
      popLoop d ns vertex = some d' →
      d'.length = d.length ∧ (∀ u ∈ ns, u < d.length) ∧
      ∀ u, ns.count u ≤ (row d u).count vertex ∧
        ∀ y, (row d' u).count y =
          (row d u).count y - (if vertex = y then ns.count u else 0) := by
  intro ns
  induction ns with
  | nil =>
      intro d d' h
      simp only [popLoop, Option.some.injEq] at h
      subst h
      refine ⟨rfl, by simp, fun u => ⟨by simp, fun y => by simp⟩⟩
  | cons u0 rest ih =>
      intro d d' h
      simp only [popLoop, Option.bind_eq_bind, Option.bind_eq_some] at h
      obtain ⟨lu, hlu, pos, hpos, hrec⟩ := h
      have hu0 : u0 < d.length := (List.getElem?_eq_some_iff.1 hlu).1
      have hrow : row d u0 = lu := by unfold row; rw [hlu]; rfl
      have hposv : lu[pos]? = some vertex := position_beq_spec hpos
      have hplt : pos < lu.length := (List.getElem?_eq_some_iff.1 hposv).1
      have hvc : 0 < lu.count vertex := List.count_pos_iff.2 (by
        rw [List.mem_iff_getElem?]
        exact ⟨pos, hposv⟩)
      have hcsw : ∀ y, (swapRemove lu pos).count y =
          lu.count y - (if vertex = y then 1 else 0) :=
        count_swapRemove hplt hposv
      obtain ⟨ihlen, ihmem, ihcnt⟩ := ih (d.set u0 (swapRemove lu pos)) d' hrec
      have hlen1 : (d.set u0 (swapRemove lu pos)).length = d.length := by simp
      refine ⟨ihlen.trans hlen1, ?_, ?_⟩
      · intro u hu
        rcases List.mem_cons.1 hu with rfl | hu'
        · exact hu0
        · exact hlen1 ▸ ihmem u hu'
      · intro u
        obtain ⟨ih1, ih2⟩ := ihcnt u
        rw [row_set hu0] at ih1 ih2
        by_cases hu : u0 = u
        · subst hu
          rw [if_pos rfl] at ih1 ih2
          have hv := hcsw vertex
          rw [if_pos rfl] at hv
          constructor
          · rw [hrow, List.count_cons]
            simp only [beq_self_eq_true, if_true]
            omega
          · intro y
            rw [ih2 y, hcsw y, hrow, List.count_cons]
            simp only [beq_self_eq_true, if_true]
            by_cases hy : vertex = y
            · subst hy
              simp only [eq_self_iff_true, if_true] <;> omega
            · simp only [hy, if_false] <;> omega
        · rw [if_neg hu] at ih1 ih2
          have hne : (u0 == u) = false := by simp [hu]
          constructor
          · rw [List.count_cons, hne]
            simpa using ih1
          · intro y
            rw [ih2 y, List.count_cons, hne]
            simp

/-- `popLoop` succeeds when every processed vertex is in range and holds
enough occurrences of `vertex`. -/
theorem popLoop_total {vertex : Nat} :
    ∀ (ns : List Nat) (d : List (List Nat)),
      (∀ u ∈ ns, u < d.length) →
      (∀ u, ns.count u ≤ (row d u).count vertex) →
      ∃ d', popLoop d ns vertex = some d' := by
  intro ns
  induction ns with
  | nil => intro d _ _; exact ⟨d, rfl⟩
  | cons u0 rest ih =>
      intro d hmem hcnt
      have hu0 : u0 < d.length := hmem u0 (by simp)
      have hlu : d[u0]? = some (row d u0) := by
        unfold row
        rw [List.getElem?_eq_getElem hu0]
        rfl
      have hc0 : 0 < (row d u0).count vertex := by
        have := hcnt u0
        rw [List.count_cons] at this
        simp only [beq_self_eq_true, if_true] at this
        omega
      obtain ⟨i, hi⟩ := @position_isSome_of (fun x => x == vertex) _
        ⟨vertex, List.count_pos_iff.1 hc0, by simp⟩
      have hiv : (row d u0)[i]? = some vertex := position_beq_spec hi
      have hilt : i < (row d u0).length := (List.getElem?_eq_some_iff.1 hiv).1
      have hcsw := count_swapRemove hilt hiv
      obtain ⟨d', hd'⟩ := ih (d.set u0 (swapRemove (row d u0) i))
        (fun u hu => by simpa using hmem u (by simp [hu]))
        (fun u => by
          rw [row_set hu0]
          by_cases hu : u0 = u
          · subst hu
            rw [if_pos rfl, hcsw vertex, if_pos rfl]
            have := hcnt u0
            rw [List.count_cons] at this
            simp only [beq_self_eq_true, if_true] at this
            omega
          · rw [if_neg hu]
            have := hcnt u
            have hne : (u0 == u) = false := by simp [hu]
            rw [List.count_cons, hne] at this
            simp only [Bool.false_eq_true, if_false, Nat.add_zero] at this
            exact this)
      exact ⟨d', by
        simp only [popLoop, Option.bind_eq_bind, hlu, Option.some_bind, hi,
          Option.some_bind, hd']⟩

/-- Inversion of a successful `pop_edges`. -/
theorem pop_edges_some_spec {g g' : Graph} {v : Nat} {ns : List Nat}
    (h : pop_edges g v = some (g', ns)) :
    ns = g.adj v ∧ g'.size = g.size ∧ g'.data.length = g.data.length ∧
    v < g.data.length ∧ g'.adj v = [] ∧
    (∀ u ∈ ns, u < g.data.length) ∧
    (∀ u, ns.count u ≤ (g.adj u).count v) ∧
    (∀ u, u ≠ v → ∀ y, (g'.adj u).count y =
      (g.adj u).count y - (if v = y then ns.count u else 0)) := by
  simp only [pop_edges, Option.bind_eq_bind, Option.bind_eq_some,
    Option.some.injEq, Prod.mk.injEq] at h
  obtain ⟨la, hla, d1, hd1, hg, hns⟩ := h
  have hns' : ns = la := hns.symm
  subst hns'
  have hv : v < g.data.length := (List.getElem?_eq_some_iff.1 hla).1
  have hrow : row g.data v = ns := by unfold row; rw [hla]; rfl
  obtain ⟨hlen, hmem, hcnt⟩ := popLoop_some_spec ns g.data d1 hd1
  have hvd1 : v < d1.length := hlen ▸ hv
  have hdata : g'.data = d1.set v [] := by rw [← hg]
  have hsize : g'.size = g.size := by rw [← hg]
  refine ⟨by rw [adj_eq_row, hrow], hsize, by rw [hdata]; simpa using hlen,
    hv, ?_, hmem, fun u => (hcnt u).1.trans (by rw [adj_eq_row]), ?_⟩
  · rw [adj_eq_row, hdata, row_set hvd1, if_pos rfl]
  · intro u hu y
    rw [adj_eq_row, hdata, row_set hvd1, if_neg (fun hc => hu hc.symm),
      adj_eq_row]
    exact (hcnt u).2 y

/-- `pop_edges` succeeds when `v` is in range and every neighbor's list
holds the multiplicity of `v` announced by `v`'s own list. -/
theorem pop_edges_total {g : Graph} {v : Nat} (hv : v < g.data.length)
    (hmem : ∀ u ∈ g.adj v, u < g.data.length)
    (hcnt : ∀ u, (g.adj v).count u ≤ (g.adj u).count v) :
    ∃ g' ns, pop_edges g v = some (g', ns) := by
  have hla : g.data[v]? = some (g.adj v) := by
    unfold Graph.adj
    rw [List.getElem?_eq_getElem hv]
    rfl
  obtain ⟨d', hd'⟩ := popLoop_total (g.adj v) g.data hmem
    (fun u => (hcnt u).trans_eq (by rw [adj_eq_row]))
  refine ⟨⟨g.size, d'.set v []⟩, g.adj v, ?_⟩
  simp only [pop_edges, Option.bind_eq_bind, hla, Option.some_bind, hd',
    Option.some_bind]

/-- List-level description of `add_edge` for distinct endpoints. -/
theorem add_edge_rows_ne {g g' : Graph} {a b : Nat} (hab : a ≠ b)
    (h : add_edge g a b = some g') :
    g'.size = g.size ∧ g'.data.length = g.data.length ∧
    g'.adj a = g.adj a ++ [b] ∧ g'.adj b = g.adj b ++ [a] ∧
    ∀ x, x ≠ a → x ≠ b → g'.adj x = g.adj x := by
  simp only [add_edge, Option.bind_eq_bind, Option.bind_eq_some,
    Option.some.injEq] at h
  obtain ⟨la, hla, lb, hlb, hg⟩ := h
  subst hg
  have ha : a < g.data.length := (List.getElem?_eq_some_iff.1 hla).1
  have hb : b < g.data.length := by
    have := (List.getElem?_eq_some_iff.1 hlb).1
    simpa using this
  have hlaval : row g.data a = la := by unfold row; rw [hla]; rfl
  have hlbval : lb = row g.data b := by
    rw [List.getElem?_set_ne hab] at hlb
    unfold row
    rw [hlb]
    rfl
  subst hlbval
  refine ⟨rfl, by simp, ?_, ?_, ?_⟩
  · show row ((g.data.set a (la ++ [b])).set b (row g.data b ++ [a])) a
      = g.adj a ++ [b]
    rw [row_set (by simpa using hb), if_neg (fun hc => hab hc.symm),
      row_set ha, if_pos rfl, adj_eq_row, hlaval]
  · show row ((g.data.set a (la ++ [b])).set b (row g.data b ++ [a])) b
      = g.adj b ++ [a]
    rw [row_set (by simpa using hb), if_pos rfl, adj_eq_row]
  · intro x hxa hxb
    show row ((g.data.set a (la ++ [b])).set b (row g.data b ++ [a])) x
      = g.adj x
    rw [row_set (by simpa using hb), if_neg (fun hc => hxb hc.symm),
      row_set ha, if_neg (fun hc => hxa hc.symm), adj_eq_row]

/-- `add_edges` with a snapshot avoiding `v` itself: total on in-range
input, `v`'s row gets the snapshot appended, every other row gains back
exactly its announced multiplicity of `v`. -/
theorem add_edges_no_self {v : Nat} :
    ∀ (ns : List Nat) (g : Graph), v < g.data.length →
      (∀ u ∈ ns, u < g.data.length ∧ u ≠ v) →
      ∃ g', add_edges g v ns = some g' ∧ g'.size = g.size ∧
        g'.data.length = g.data.length ∧
        g'.adj v = g.adj v ++ ns ∧
        ∀ u, u ≠ v → ∀ y, (g'.adj u).count y =
          (g.adj u).count y + (if y = v then ns.count u else 0) := by
  intro ns
  induction ns with
  | nil =>
      intro g hv _
      exact ⟨g, rfl, rfl, rfl, by simp, fun u _ y => by simp⟩
  | cons u0 rest ih =>
      intro g hv hns
      obtain ⟨hu0lt, hu0v⟩ := hns u0 (by simp)
      obtain ⟨g1, hg1⟩ := add_edge_total hv hu0lt
      obtain ⟨hsz1, hlen1, hrowv, hrowu0, hother⟩ :=
        add_edge_rows_ne (fun hc => hu0v hc.symm) hg1
      obtain ⟨g', hg', hsz, hlen, hv', hcnt⟩ := ih g1 (hlen1 ▸ hv)
        (fun u hu => ⟨hlen1 ▸ (hns u (by simp [hu])).1, (hns u (by simp [hu])).2⟩)
      refine ⟨g', ?_, hsz.trans hsz1, hlen.trans hlen1, ?_, ?_⟩
      · simp only [add_edges, Option.bind_eq_bind, hg1, Option.some_bind, hg']
      · rw [hv', hrowv]
        simp
      · intro u hu y
        rw [hcnt u hu y]
        by_cases huu : u = u0
        · subst huu
          rw [hrowu0, count_append_singleton, List.count_cons]
          by_cases hy : y = v
          · subst hy
            simp only [if_pos rfl, beq_self_eq_true, if_true]
            omega
          · have hvy : ¬ v = y := fun hc => hy hc.symm
            simp only [if_neg hy, if_neg hvy]
        · rw [hother u hu huu, List.count_cons]
          have hne : (u0 == u) = false := by
            simp only [beq_eq_false_iff_ne, ne_eq]
            exact fun hc => huu hc.symm
          rw [hne]
          simp

/-! ## Symmetry preservation -/

/-- Out-of-range vertices have empty adjacency lists. -/
theorem adj_out_of_range {g : Graph} (hWF : g.WF) {v : Nat}
    (hv : ¬ v < g.size) : g.adj v = [] := by
  unfold Graph.adj
  rw [List.getElem?_eq_none]
  · rfl
  · rw [hWF.1]
    omega

/-- On a well-formed graph every stored neighbor id is in range. -/
theorem adj_entries_lt {g : Graph} (hWF : g.WF) {v x : Nat}
    (hx : x ∈ g.adj v) : x < g.size := by
  unfold Graph.adj at hx
  cases hv : g.data[v]? with
  | none => rw [hv] at hx; simp at hx
  | some l =>
      rw [hv] at hx
      obtain ⟨hlt, hval⟩ := List.getElem?_eq_some_iff.1 hv
      exact hWF.2.1 l (hval ▸ List.getElem_mem hlt) x hx

/-- The bounded boolean symmetry check certifies the full invariant on a
well-formed graph. -/
theorem symm_of_symmB {g : Graph} (hWF : g.WF) (h : symmB g = true) :
    g.Symm := by
  intro a b
  by_cases ha : a < g.size
  · by_cases hb : b < g.size
    · have := List.all_eq_true.1 h a (List.mem_range.2 ha)
      have := List.all_eq_true.1 this b (List.mem_range.2 hb)
      exact beq_iff_eq.mp this
    · rw [adj_out_of_range hWF hb, List.count_nil,
        List.count_eq_zero.2 (fun hc => hb (adj_entries_lt hWF hc))]
  · rw [adj_out_of_range hWF ha, List.count_nil,
      List.count_eq_zero.2 (fun hc => ha (adj_entries_lt hWF hc))]

/-- `add_edge` preserves the symmetry invariant. -/
theorem add_edge_symm {g g' : Graph} {a b : Nat} (hs : g.Symm)
    (h : add_edge g a b = some g') : g'.Symm := by
  obtain ⟨-, -, -, -, hcnt⟩ := add_edge_some_counts h
  intro x y
  rw [hcnt x y, hcnt y x, hs x y]
  have e1 : (if x = a ∧ y = b then 1 else 0)
      = (if y = b ∧ x = a then 1 else 0) := by
    by_cases hc : x = a ∧ y = b
    · rw [if_pos hc, if_pos ⟨hc.2, hc.1⟩]
    · rw [if_neg hc, if_neg fun hc' => hc ⟨hc'.2, hc'.1⟩]
  have e2 : (if x = b ∧ y = a then 1 else 0)
      = (if y = a ∧ x = b then 1 else 0) := by
    by_cases hc : x = b ∧ y = a
    · rw [if_pos hc, if_pos ⟨hc.2, hc.1⟩]
    · rw [if_neg hc, if_neg fun hc' => hc ⟨hc'.2, hc'.1⟩]
  omega

/-- `remove_edge` preserves the symmetry invariant. -/
theorem remove_edge_symm {g g' : Graph} {a b : Nat} (hs : g.Symm)
    (h : remove_edge g a b = some g') : g'.Symm := by
  obtain ⟨-, -, -, -, -, -, -, hcnt⟩ := remove_edge_some_counts h
  intro x y
  rw [hcnt x y, hcnt y x, hs x y]
  have e1 : (if x = a ∧ y = b then 1 else 0)
      = (if y = b ∧ x = a then 1 else 0) := by
    by_cases hc : x = a ∧ y = b
    · rw [if_pos hc, if_pos ⟨hc.2, hc.1⟩]
    · rw [if_neg hc, if_neg fun hc' => hc ⟨hc'.2, hc'.1⟩]
  have e2 : (if x = b ∧ y = a then 1 else 0)
      = (if y = a ∧ x = b then 1 else 0) := by
    by_cases hc : x = b ∧ y = a
    · rw [if_pos hc, if_pos ⟨hc.2, hc.1⟩]
    · rw [if_neg hc, if_neg fun hc' => hc ⟨hc'.2, hc'.1⟩]
  omega

/-- `pop_edges` preserves the symmetry invariant. -/
theorem pop_edges_symm {g g' : Graph} {v : Nat} {ns : List Nat}
    (hs : g.Symm) (h : pop_edges g v = some (g', ns)) : g'.Symm := by
  obtain ⟨hns, -, -, -, hv0, -, hle, hcnt⟩ := pop_edges_some_spec h
  have hkey : ∀ u, u ≠ v → (g.adj u).count v = ns.count u := by
    intro u hu
    rw [hs u v, hns]
  intro x y
  by_cases hx : x = v
  · rw [hx, hv0, List.count_nil]
    by_cases hy : y = v
    · rw [hy, hv0, List.count_nil]
    · rw [hcnt y hy v, if_pos rfl, hkey y hy]
      omega
  · by_cases hy : y = v
    · rw [hy, hv0, List.count_nil, hcnt x hx v, if_pos rfl, hkey x hx]
      omega
    · rw [hcnt x hx y, hcnt y hy x,
        if_neg (fun hc => hy hc.symm), if_neg (fun hc => hx hc.symm),
        hs x y]

/-- `add_edges` preserves the symmetry invariant. -/
theorem add_edges_symm {v : Nat} :
    ∀ {ns : List Nat} {g g' : Graph}, g.Symm →
      add_edges g v ns = some g' → g'.Symm := by
  intro ns
  induction ns with
  | nil =>
      intro g g' hs h
      simp only [add_edges, Option.some.injEq] at h
      subst h
      exact hs
  | cons u rest ih =>
      intro g g' hs h
      simp only [add_edges, Option.bind_eq_bind, Option.bind_eq_some] at h
      obtain ⟨g1, hg1, hrec⟩ := h
      exact ih (add_edge_symm hs hg1) hrec

/-- C6: every `Graph` mutation — `add_edge`, `remove_edge`, `pop_edges`
(and its `add_edges` undo) — preserves the symmetry invariant: the number
of occurrences of `b` in `a`'s neighbor list always equals the number of
occurrences of `a` in `b`'s list. -/
theorem C6_mutations_preserve_symmetry :
    (∀ (g g' : Graph) (a b : Nat), g.Symm →
      add_edge g a b = some g' → g'.Symm) ∧
    (∀ (g g' : Graph) (a b : Nat), g.Symm →
      remove_edge g a b = some g' → g'.Symm) ∧
    (∀ (g g' : Graph) (v : Nat) (ns : List Nat), g.Symm →
      pop_edges g v = some (g', ns) → g'.Symm) ∧
    (∀ (g g' : Graph) (v : Nat) (ns : List Nat), g.Symm →
      add_edges g v ns = some g' → g'.Symm) :=
  ⟨fun _ _ _ _ hs h => add_edge_symm hs h,
   fun _ _ _ _ hs h => remove_edge_symm hs h,
   fun _ _ _ _ hs h => pop_edges_symm hs h,
   fun _ _ _ _ hs h => add_edges_symm hs h⟩

/-- Witness for C6: adding the chord `0-2` to the 4-cycle yields a
symmetric graph again. -/
theorem C6_witness :
    Graph.Symm ⟨4, [[1, 3, 2], [0, 2], [1, 3, 0], [2, 0]]⟩ :=
  C6_mutations_preserve_symmetry.1 cyc4 ⟨4, [[1, 3, 2], [0, 2], [1, 3, 0], [2, 0]]⟩
    0 2 (symm_of_symmB (by decide) (by decide)) (by decide)

/-- C8 (amended): on a well-formed symmetric graph with no self-loop at
`v`, `popEdges(v)` followed by `restoreEdges(v, s)` with the returned
snapshot `s` restores the edge multiset exactly (adjacency-list order may
differ).  (The original claim is false when `v` carries a self-loop, see
the counterexample.) -/
theorem C8_amended {g : Graph} {v : Nat} (hWF : g.WF) (hs : g.Symm)
    (hv : v < g.size) (hself : v ∉ g.adj v) :
    ∃ g1 ns g2, pop_edges g v = some (g1, ns) ∧
      add_edges g1 v ns = some g2 ∧
      ∀ x y, (g2.adj x).count y = (g.adj x).count y := by
  have hvlen : v < g.data.length := by rw [hWF.1]; exact hv
  have hmem : ∀ u ∈ g.adj v, u < g.data.length := fun u hu => by
    rw [hWF.1]
    exact adj_entries_lt hWF hu
  have hcnt0 : ∀ u, (g.adj v).count u ≤ (g.adj u).count v :=
    fun u => (hs v u).le
  obtain ⟨g1, ns, hpop⟩ := pop_edges_total hvlen hmem hcnt0
  obtain ⟨hns, hsz1, hlen1, -, hv0, hmem1, hle1, hcnt1⟩ :=
    pop_edges_some_spec hpop
  have hvlen1 : v < g1.data.length := hlen1 ▸ hvlen
  have hns_ok : ∀ u ∈ ns, u < g1.data.length ∧ u ≠ v := by
    intro u hu
    refine ⟨hlen1 ▸ hmem1 u hu, fun hc => ?_⟩
    exact hself (hns ▸ hc ▸ hu)
  obtain ⟨g2, hadd, hsz2, hlen2, hv2, hcnt2⟩ :=
    add_edges_no_self ns g1 hvlen1 hns_ok
  refine ⟨g1, ns, g2, hpop, hadd, ?_⟩
  intro x y
  by_cases hx : x = v
  · rw [hx, hv2, hv0, List.nil_append, hns]
  · rw [hcnt2 x hx y, hcnt1 x hx y]
    by_cases hy : y = v
    · rw [hy]
      simp only [eq_self_iff_true, if_true]
      have := hle1 x
      omega
    · rw [if_neg hy, if_neg (fun hc => hy hc.symm)]
      omega

/-- Witness for the amended C8, on the symmetric 5-cycle at vertex 2. -/
theorem C8_amended_witness :
    ∃ g1 ns g2, pop_edges cyc5 2 = some (g1, ns) ∧
      add_edges g1 2 ns = some g2 ∧
      ∀ x y, (g2.adj x).count y = (cyc5.adj x).count y :=
  C8_amended (by decide) (symm_of_symmB (by decide) (by decide)) (by decide)
    (by decide)

/-! ## Array-entry lemmas -/

/-- `entry` after `set` at an in-range index. -/
theorem entry_set {l : List Nat} {i : Nat} (hi : i < l.length)
    (a x : Nat) : entry (l.set i a) x = if i = x then a else entry l x := by
  unfold entry
  rw [List.getElem?_set]
  by_cases h : i = x
  · subst h
    simp [hi]
  · simp [h]

/-- `entry` on an in-range index is the stored value. -/
theorem entry_lt {l : List Nat} {i : Nat} (hi : i < l.length) :
    entry l i = l[i] := by
  unfold entry
  rw [List.getElem?_eq_getElem hi]
  rfl

/-- `entry` of `replicate`. -/
theorem entry_replicate {n x v : Nat} :
    entry (List.replicate n v) x = if x < n then v else USIZE_MAX := by
  unfold entry
  rw [List.getElem?_replicate]
  by_cases h : x < n
  · simp [h]
  · simp [h]

/-- Counting after `set`. -/
theorem count_set {l : List Nat} {i : Nat} (hi : i < l.length) (a y : Nat) :
    (l.set i a).count y =
      l.count y - (if l[i] = y then 1 else 0) + (if a = y then 1 else 0) := by
  have hdec : l = l.take i ++ l[i] :: l.drop (i + 1) := by
    conv_lhs => rw [← l.take_append_drop i, List.drop_eq_getElem_cons hi]
  rw [List.set_eq_take_cons_drop a hi]
  have h1 : (l.take i ++ a :: l.drop (i + 1)).count y
      = (l.take i).count y + (l.drop (i + 1)).count y
        + (if a = y then 1 else 0) := by
    rw [List.count_append, List.count_cons]
    by_cases hy : a = y
    · simp [hy]
      omega
    · have : (a == y) = false := by simp [hy]
      simp [this, hy]
  have h2 : l.count y = (l.take i).count y + (l.drop (i + 1)).count y
      + (if l[i] = y then 1 else 0) := by
    conv_lhs => rw [hdec]
    rw [List.count_append, List.count_cons]
    by_cases hy : l[i] = y
    · simp [hy]
      omega
    · have : (l[i] == y) = false := by simp [hy]
      simp [this, hy]
  omega

/-- The entry at an in-range index contributes to the count. -/
theorem count_pos_of_entry {l : List Nat} {x : Nat} (hx : x < l.length) :
    0 < l.count (entry l x) := by
  rw [entry_lt hx]
  exact List.count_pos_iff.2 (List.getElem_mem hx)

/-! ## Phase-A (full BFS) loop lemmas -/

/-- A well-formed size stays clear of the sentinel. -/
theorem size_lt_max {g : Graph} (hWF : g.WF) : g.size + 1 < USIZE_MAX := by
  have h := hWF.2.2
  have : (2 : Nat) ^ 61 + 1 < USIZE_MAX := by norm_num [USIZE_MAX]
  omega

/-- One phase-A neighbor scan: terminates, discovers every scanned
neighbor, preserves old entries, keeps the budget invariant and the
queue-length/unvisited-count measure. -/
theorem phaseAScan_ok {g : Graph} (hWF : g.WF) {current : Nat}
    (hcur : current < g.size) :
    ∀ (ns q dts pfs : List Nat),
      dts.length = g.size → pfs.length = g.size →
      (∀ x ∈ ns, x < g.size) →
      entry dts current ≠ USIZE_MAX →
      (∀ x, entry dts x ≠ USIZE_MAX →
        entry dts x + dts.count USIZE_MAX ≤ g.size) →
      (∀ x ∈ q, x < g.size ∧ entry dts x ≠ USIZE_MAX) →
      ∃ q2 dts2 pfs2,
        phaseAScan current ns q dts pfs = some (q2, dts2, pfs2) ∧
        dts2.length = g.size ∧ pfs2.length = g.size ∧
        (∀ x, entry dts x ≠ USIZE_MAX → entry dts2 x = entry dts x) ∧
        (∀ w ∈ ns, entry dts2 w ≠ USIZE_MAX) ∧
        (∀ x, entry dts2 x ≠ USIZE_MAX →
          entry dts2 x + dts2.count USIZE_MAX ≤ g.size) ∧
        q2.length + dts2.count USIZE_MAX
          = q.length + dts.count USIZE_MAX ∧
        (∀ x ∈ q, x ∈ q2) ∧
        (∀ u, entry dts2 u ≠ USIZE_MAX →
          entry dts u ≠ USIZE_MAX ∨ u ∈ q2) ∧
        (∀ x ∈ q2, x < g.size ∧ entry dts2 x ≠ USIZE_MAX) := by
  intro ns
  induction ns with
  | nil =>
      intro q dts pfs hdl hpl _ hc hbound hq
      exact ⟨q, dts, pfs, rfl, hdl, hpl, fun x _ => rfl, by simp, hbound,
        rfl, fun x hx => hx, fun u hu => Or.inl hu, hq⟩
  | cons v rest ih =>
      intro q dts pfs hdl hpl hns hc hbound hq
      have hvlt : v < g.size := hns v (by simp)
      have hvdts : v < dts.length := by rw [hdl]; exact hvlt
      have hcdts : current < dts.length := by rw [hdl]; exact hcur
      have hdveq : dts[v]? = some (entry dts v) := by
        rw [entry_lt hvdts, List.getElem?_eq_getElem hvdts]
      by_cases hdv : entry dts v = USIZE_MAX
      · -- first visit: discover v
        have hcget : dts[current]? = some (entry dts current) := by
          rw [entry_lt hcdts, List.getElem?_eq_getElem hcdts]
        have hcount1 : 0 < dts.count USIZE_MAX := by
          have := count_pos_of_entry hvdts
          rw [hdv] at this
          exact this
        have hdcsize : entry dts current + dts.count USIZE_MAX ≤ g.size :=
          hbound current hc
        have hd1ne : entry dts current + 1 ≠ USIZE_MAX := by
          have := size_lt_max hWF
          omega
        have hcadd : cadd (entry dts current) 1
            = some (entry dts current + 1) := by
          unfold cadd
          rw [if_pos (by have := size_lt_max hWF; omega)]
        have hset1 : setN dts v (entry dts current + 1)
            = some (dts.set v (entry dts current + 1)) := by
          unfold setN
          rw [if_pos hvdts]
        have hset2 : setN pfs v current = some (pfs.set v current) := by
          unfold setN
          rw [if_pos (by rw [hpl]; exact hvlt)]
        set dts' := dts.set v (entry dts current + 1) with hdts'
        have hentry' : ∀ x, entry dts' x
            = if v = x then entry dts current + 1 else entry dts x :=
          fun x => entry_set hvdts _ x
        have hcount' : dts'.count USIZE_MAX = dts.count USIZE_MAX - 1 := by
          rw [hdts', count_set hvdts]
          rw [if_pos (by rw [← entry_lt hvdts]; exact hdv), if_neg hd1ne]
          omega
        have hdl' : dts'.length = g.size := by rw [hdts']; simpa using hdl
        have hpl' : (pfs.set v current).length = g.size := by
          simpa using hpl
        have hc' : entry dts' current ≠ USIZE_MAX := by
          rw [hentry' current,
            if_neg (fun hvc : v = current => hc (hvc ▸ hdv))]
          exact hc
        have hbound' : ∀ x, entry dts' x ≠ USIZE_MAX →
            entry dts' x + dts'.count USIZE_MAX ≤ g.size := by
          intro x hx
          rw [hentry' x] at hx ⊢
          rw [hcount']
          by_cases hvx : v = x
          · rw [if_pos hvx] at hx ⊢
            omega
          · rw [if_neg hvx] at hx ⊢
            have := hbound x hx
            omega
        have hq' : ∀ x ∈ q ++ [v], x < g.size ∧
            entry dts' x ≠ USIZE_MAX := by
          intro x hx
          rcases List.mem_append.1 hx with hx' | hx'
          · obtain ⟨h1, h2⟩ := hq x hx'
            refine ⟨h1, ?_⟩
            rw [hentry' x, if_neg (fun hvc : v = x => h2 (hvc ▸ hdv))]
            exact h2
          · have hxv : x = v := by simpa using hx'
            subst hxv
            refine ⟨hvlt, ?_⟩
            rw [hentry' x, if_pos rfl]
            exact hd1ne
        obtain ⟨q2, dts2, pfs2, heq, h1, h2, h3, h4, h5, h6, h7, h8, h9⟩ :=
          ih (q ++ [v]) dts' (pfs.set v current) hdl' hpl'
            (fun x hx => hns x (by simp [hx])) hc' hbound' hq'
        refine ⟨q2, dts2, pfs2, ?_, h1, h2, ?_, ?_, h5, ?_, ?_, ?_, h9⟩
        · simp only [phaseAScan, Option.bind_eq_bind, hdveq,
            Option.some_bind, if_pos hdv, hcget, hcadd, hset1, hset2, heq]
        · intro x hx
          have hxv : ¬ v = x := fun hvc : v = x => hx (hvc ▸ hdv)
          rw [h3 x (by rw [hentry' x, if_neg hxv]; exact hx), hentry' x,
            if_neg hxv]
        · intro w hw
          rcases List.mem_cons.1 hw with rfl | hw'
          · rw [h3 w (by rw [hentry' w, if_pos rfl]; exact hd1ne),
              hentry' w, if_pos rfl]
            exact hd1ne
          · exact h4 w hw'
        · rw [h6]
          simp only [List.length_append, List.length_singleton]
          rw [hcount']
          omega
        · intro x hx
          exact h7 x (by simp [hx])
        · intro u hu
          rcases h8 u hu with hu' | hu'
          · rw [hentry' u] at hu'
            by_cases hvu : v = u
            · right
              exact h7 u (by simp [← hvu])
            · left
              rw [if_neg hvu] at hu'
              exact hu'
          · right
            exact hu'
      · -- already visited: skip
        obtain ⟨q2, dts2, pfs2, heq, h1, h2, h3, h4, h5, h6, h7, h8, h9⟩ :=
          ih q dts pfs hdl hpl (fun x hx => hns x (by simp [hx])) hc hbound hq
        refine ⟨q2, dts2, pfs2, ?_, h1, h2, h3, ?_, h5, h6, h7, h8, h9⟩
        · simp only [phaseAScan, Option.bind_eq_bind, hdveq,
            Option.some_bind, if_neg hdv, heq]
        · intro w hw
          rcases List.mem_cons.1 hw with rfl | hw'
          · rw [h3 w hdv]
            exact hdv
          · exact h4 w hw'

/-- The phase-A loop terminates within its fuel and yields arrays whose
discovered entries are bounded by the vertex count and closed under
adjacency. -/
theorem phaseALoop_ok {g : Graph} (hWF : g.WF) :
    ∀ (fuel : Nat) (q dts pfs : List Nat),
      dts.length = g.size → pfs.length = g.size →
      (∀ x ∈ q, x < g.size ∧ entry dts x ≠ USIZE_MAX) →
      (∀ x, entry dts x ≠ USIZE_MAX →
        entry dts x + dts.count USIZE_MAX ≤ g.size) →
      (∀ u, entry dts u ≠ USIZE_MAX → u ∈ q ∨
        ∀ w ∈ g.adj u, entry dts w ≠ USIZE_MAX) →
      q.length + dts.count USIZE_MAX < fuel →
      ∃ dts2 pfs2, phaseALoop g fuel q dts pfs = some (dts2, pfs2) ∧
        dts2.length = g.size ∧ pfs2.length = g.size ∧
        (∀ x, entry dts x ≠ USIZE_MAX → entry dts2 x = entry dts x) ∧
        (∀ x, entry dts2 x ≠ USIZE_MAX → entry dts2 x ≤ g.size) ∧
        (∀ u, entry dts2 u ≠ USIZE_MAX → ∀ w ∈ g.adj u,
          entry dts2 w ≠ USIZE_MAX) := by
  intro fuel
  induction fuel with
  | zero => intro q dts pfs _ _ _ _ _ hm; omega
  | succ fuel ih =>
      intro q dts pfs hdl hpl hq hbound hcl hm
      cases q with
      | nil =>
          refine ⟨dts, pfs, rfl, hdl, hpl, fun x _ => rfl, ?_, ?_⟩
          · intro x hx
            have := hbound x hx
            omega
          · intro u hu
            rcases hcl u hu with hu' | hu'
            · simp at hu'
            · exact hu'
      | cons current q' =>
          obtain ⟨hclt, hcne⟩ := hq current (by simp)
          have hcdata : current < g.data.length := by
            rw [hWF.1]
            exact hclt
          have hadj : g.data[current]? = some (g.adj current) := by
            unfold Graph.adj
            rw [List.getElem?_eq_getElem hcdata]
            rfl
          obtain ⟨q2, dts2, pfs2, heq, h1, h2, h3, h4, h5, h6, h7, h8, h9⟩ :=
            phaseAScan_ok hWF hclt (g.adj current) q' dts pfs hdl hpl
              (fun x hx => adj_entries_lt hWF hx) hcne hbound
              (fun x hx => hq x (by simp [hx]))
          obtain ⟨dts3, pfs3, heq3, g1, g2, g3, g4, g5⟩ :=
            ih q2 dts2 pfs2 h1 h2 h9 h5
              (by
                intro u hu
                rcases h8 u hu with hu' | hu'
                · rcases hcl u hu' with hu'' | hu''
                  · rcases List.mem_cons.1 hu'' with rfl | huq
                    · right
                      intro w hw
                      exact h4 w hw
                    · left
                      exact h7 u huq
                  · right
                    intro w hw
                    have := hu'' w hw
                    rw [h3 w this]
                    exact this
                · left
                  exact hu')
              (by
                simp only [List.length_cons] at hm
                omega)
          refine ⟨dts3, pfs3, ?_, g1, g2, ?_, g4, g5⟩
          · simp only [phaseALoop, Option.bind_eq_bind, hadj,
              Option.some_bind, heq, Option.some_bind, heq3]
          · intro x hx
            rw [g3 x (by rw [h3 x hx]; exact hx), h3 x hx]

/-- Entries of the freshly initialised start-distance array. -/
theorem entry_init {n s x : Nat} (hs : s < n) :
    entry ((List.replicate n USIZE_MAX).set s 0) x
      = if s = x then 0 else USIZE_MAX := by
  rw [entry_set (by simpa using hs), entry_replicate]
  by_cases h : s = x
  · simp [h]
  · by_cases hx : x < n <;> simp [h, hx]

/-- Unvisited count of the freshly initialised start-distance array. -/
theorem count_init {n s : Nat} (hs : s < n) :
    ((List.replicate n USIZE_MAX).set s 0).count USIZE_MAX = n - 1 := by
  rw [count_set (by simpa using hs)]
  rw [List.getElem_replicate, List.count_replicate_self]
  have h0 : (0 : Nat) ≠ USIZE_MAX := by norm_num [USIZE_MAX]
  rw [if_pos rfl, if_neg h0]
  omega

/-- Phase A of `fixed_length_bfs` runs to completion on a well-formed
graph and an in-range start, and its distance array marks `start` with
`0`, stays bounded by the vertex count, and is closed under adjacency. -/
theorem fixed_length_bfs_phaseA {g : Graph} (hWF : g.WF) {start : Nat}
    (hs : start < g.size) :
    ∃ dts pfs, phaseALoop g (g.size + 2) [start]
        ((List.replicate g.size USIZE_MAX).set start 0)
        (List.replicate g.size USIZE_MAX) = some (dts, pfs) ∧
      dts.length = g.size ∧ pfs.length = g.size ∧
      entry dts start = 0 ∧
      (∀ x, entry dts x ≠ USIZE_MAX → entry dts x ≤ g.size) ∧
      (∀ u, entry dts u ≠ USIZE_MAX → ∀ w ∈ g.adj u,
        entry dts w ≠ USIZE_MAX) := by
  have hM0 : (0 : Nat) ≠ USIZE_MAX := by norm_num [USIZE_MAX]
  obtain ⟨dts2, pfs2, heq, h1, h2, h3, h4, h5⟩ :=
    phaseALoop_ok hWF (g.size + 2) [start]
      ((List.replicate g.size USIZE_MAX).set start 0)
      (List.replicate g.size USIZE_MAX)
      (by simp) (by simp)
      (by
        intro x hx
        have hxs : x = start := by simpa using hx
        subst hxs
        refine ⟨hs, ?_⟩
        rw [entry_init hs, if_pos rfl]
        exact hM0)
      (by
        intro x hx
        rw [entry_init hs] at hx ⊢
        by_cases h : start = x
        · rw [if_pos h]
          rw [count_init hs]
          omega
        · rw [if_neg h] at hx
          exact absurd rfl hx)
      (by
        intro u hu
        rw [entry_init hs] at hu
        by_cases h : start = u
        · left
          simp [h]
        · rw [if_neg h] at hu
          exact absurd rfl hu)
      (by
        rw [count_init hs]
        simp only [List.length_singleton]
        omega)
  refine ⟨dts2, pfs2, heq, h1, h2, ?_, h4, h5⟩
  have := h3 start (by rw [entry_init hs, if_pos rfl]; exact hM0)
  rw [this, entry_init hs, if_pos rfl]

/-- C9: precondition violations are faults (panics), never `NotFound`:
a search with `length < 1` faults on the `length - 1` underflow; an
out-of-range `start` or `end` faults on the distance-array write; and
`remove_edge` on an absent edge faults on the `unwrap`.  When the edge is
present, `remove_edge` removes exactly one occurrence of `b` from `a`'s
list and exactly one occurrence of `a` from `b`'s list, and changes
nothing else. -/
theorem C9_precondition_violations :
    (∀ (g : Graph) (s e : Nat), fixed_length_bfs g s e 0 = none) ∧
    (∀ (g : Graph) (s e L : Nat), g.size ≤ s →
      fixed_length_bfs g s e L = none) ∧
    (∀ (g : Graph) (s e L : Nat), g.WF → s < g.size → g.size ≤ e → 1 ≤ L →
      fixed_length_bfs g s e L = none) ∧
    (∀ (g : Graph) (a b : Nat), b ∉ g.adj a → remove_edge g a b = none) ∧
    (∀ (g g' : Graph) (a b : Nat), remove_edge g a b = some g' →
      (a ≠ b → ((g'.adj a).count b + 1 = (g.adj a).count b ∧
                (g'.adj b).count a + 1 = (g.adj b).count a)) ∧
      (a = b → (g'.adj a).count a + 2 = (g.adj a).count a) ∧
      (∀ x y, ¬(x = a ∧ y = b) → ¬(x = b ∧ y = a) →
        (g'.adj x).count y = (g.adj x).count y)) := by
  refine ⟨?_, ?_, ?_, ?_, ?_⟩
  · intro g s e
    simp [fixed_length_bfs, csub]
  · intro g s e L hsz
    cases L with
    | zero => simp [fixed_length_bfs, csub]
    | succ L' =>
        have hc : csub (L' + 1) 1 = some L' := by simp [csub]
        have hset : setN (List.replicate g.size USIZE_MAX) s 0 = none := by
          unfold setN
          rw [if_neg (by simpa using Nat.not_lt.2 hsz)]
        simp only [fixed_length_bfs, Option.bind_eq_bind, hc,
          Option.some_bind, hset, Option.none_bind]
  · intro g s e L hWF hslt hesz hL
    obtain ⟨L', rfl⟩ : ∃ L', L = L' + 1 := ⟨L - 1, by omega⟩
    have hc : csub (L' + 1) 1 = some L' := by simp [csub]
    have hset1 : setN (List.replicate g.size USIZE_MAX) s 0
        = some ((List.replicate g.size USIZE_MAX).set s 0) := by
      unfold setN
      rw [if_pos (by simpa using hslt)]
    obtain ⟨dts, pfs, heqA, -, -, -, -, -⟩ := fixed_length_bfs_phaseA hWF hslt
    have hset2 : setN (List.replicate g.size USIZE_MAX) e 0 = none := by
      unfold setN
      rw [if_neg (by simpa using Nat.not_lt.2 hesz)]
    simp only [fixed_length_bfs, Option.bind_eq_bind, hc, Option.some_bind,
      hset1, heqA, hset2, Option.none_bind]
  · intro g a b hb
    unfold remove_edge
    cases hla : g.data[a]? with
    | none => rfl
    | some la =>
        have hlaa : la = g.adj a := by
          unfold Graph.adj
          rw [hla]
          rfl
        have hpos : position (· == b) la = none := by
          apply position_none_of
          intro x hx
          simp only [beq_eq_false_iff_ne, ne_eq]
          intro hxb
          exact hb (hxb ▸ hlaa ▸ hx)
        simp only [Option.bind_eq_bind, hla, Option.some_bind, hpos,
          Option.none_bind]
  · intro g g' a b h
    obtain ⟨-, -, -, -, hmem, hmem', hself, hcnt⟩ := remove_edge_some_counts h
    refine ⟨?_, ?_, ?_⟩
    · intro hab
      constructor
      · have h1 := hcnt a b
        rw [if_pos ⟨rfl, rfl⟩, if_neg (fun hc => hab hc.1)] at h1
        have h2 : 0 < (g.adj a).count b := List.count_pos_iff.2 hmem
        omega
      · have h1 := hcnt b a
        rw [if_neg (fun hc => hab hc.2), if_pos ⟨rfl, rfl⟩] at h1
        have h2 : 0 < (g.adj b).count a := List.count_pos_iff.2 (hmem' hab)
        omega
    · intro hab
      have h1 := hcnt a a
      rw [if_pos ⟨rfl, hab ▸ rfl⟩] at h1
      rw [if_pos ⟨hab, rfl⟩] at h1
      have h2 := hself hab
      omega
    · intro x y hx1 hx2
      have h1 := hcnt x y
      rw [if_neg hx1, if_neg hx2] at h1
      omega

/-- Witness for C9 on the 4-cycle: a zero-length search, an out-of-range
start, an out-of-range end, and `remove_edge` on the absent edge `0-2`
all fault; removing the present edge `0-1` drops exactly one entry on
each side. -/
theorem C9_witness :
    fixed_length_bfs cyc4 0 2 0 = none ∧
    fixed_length_bfs cyc4 7 2 3 = none ∧
    fixed_length_bfs cyc4 0 7 3 = none ∧
    remove_edge cyc4 0 2 = none ∧
    (((⟨4, [[3], [2], [1, 3], [2, 0]]⟩ : Graph).adj 0).count 1 + 1
        = (cyc4.adj 0).count 1 ∧
      ((⟨4, [[3], [2], [1, 3], [2, 0]]⟩ : Graph).adj 1).count 0 + 1
        = (cyc4.adj 1).count 0) :=
  ⟨C9_precondition_violations.1 cyc4 0 2,
   C9_precondition_violations.2.1 cyc4 7 2 3 (by decide),
   C9_precondition_violations.2.2.1 cyc4 0 7 3 (by decide) (by decide)
     (by decide) (by decide),
   C9_precondition_violations.2.2.2.1 cyc4 0 2 (by decide),
   (C9_precondition_violations.2.2.2.2 cyc4 ⟨4, [[3], [2], [1, 3], [2, 0]]⟩
       0 1 (by decide)).1 (by decide)⟩

/-- C5 (amended): as soon as the candidate selected at the end of a `yen`
round — the first minimum-length entry of the pool — has more vertices
than the target length, the call returns `NotFound` at once: the result
does not depend on how many outer-loop rounds remain.  (The original
claim's other half, monotonicity of accepted lengths, fails; see the
counterexample.) -/
theorem C5_yen_stops_when_min_exceeds_target {endv length k : Nat}
    {g g' : Graph} {paths cs cs' : List (List Nat)} {prev : List Nat}
    {iters i : Nat} {best : List Nat}
    (hprev : paths[k - 1]? = some prev)
    (hiters : csub prev.length 1 = some iters)
    (hround : yenSpurLoop endv prev paths 0 iters g cs = some (g', cs'))
    (hmin : minByLen cs' = some (i, best))
    (hgt : length < best.length) :
    ∀ rem : Nat, yenOuterLoop endv length k (rem + 1) g paths cs
      = some (none, g', paths) := by
  intro rem
  have hsel : yenSelect length paths cs' = .done none := by
    unfold yenSelect
    rw [hmin]
    dsimp only
    rw [if_neg (show ¬ best.length = length by omega), if_pos hgt]
  simp only [yenOuterLoop, Option.bind_eq_bind, hprev, Option.some_bind,
    hiters, Option.some_bind, hround, Option.some_bind, hsel]

/-- Witness for the amended C5, on the 5-cycle with target length 3: the
round-1 pool is `[[0,4,3,2]]` (4 vertices > 3), and the outer loop
returns `NotFound` immediately even with five rounds of budget left. -/
theorem C5_amended_witness :
    yenOuterLoop 2 3 1 5 cyc5 [[0, 1, 2]] []
      = some (none, ⟨5, [[], [], [3], [2, 4], [3]]⟩, [[0, 1, 2]]) :=
  @C5_yen_stops_when_min_exceeds_target 2 3 1 cyc5
    ⟨5, [[], [], [3], [2, 4], [3]]⟩ [[0, 1, 2]] [] [[0, 4, 3, 2]]
    [0, 1, 2] 2 0 [0, 4, 3, 2] (by decide) (by decide) (by decide)
    (by decide) (by decide) 4

/-! ## Phase-B lemmas for the degenerate target `distance = 0` -/

/-- With `distance = 0`, one phase-B neighbor scan can only make
first-visit discoveries (the re-relaxation guard needs a sum `< 0`), the
success test `dts[v] + dte[v] = 0` never fires (the new end-distance is
at least `1` and the start-distances of scanned vertices are finite), so
the scan always continues, preserving the loop invariants and the
queue/unvisited measure. -/
theorem phaseB0Scan_ok {g : Graph} (hWF : g.WF) {dts pfs : List Nat}
    (hbnd : ∀ x, entry dts x ≠ USIZE_MAX → entry dts x ≤ g.size)
    (hclo : ∀ u, entry dts u ≠ USIZE_MAX → ∀ w ∈ g.adj u,
      entry dts w ≠ USIZE_MAX)
    {current : Nat} (hcur : current < g.size)
    (hdtsc : entry dts current ≠ USIZE_MAX) :
    ∀ (ns q dte pfe : List Nat),
      dte.length = g.size → pfe.length = g.size →
      (∀ x ∈ ns, x ∈ g.adj current) →
      entry dte current ≠ USIZE_MAX →
      (∀ x, entry dte x ≠ USIZE_MAX →
        entry dte x + dte.count USIZE_MAX ≤ g.size) →
      (∀ x, entry dte x ≠ USIZE_MAX → entry dts x ≠ USIZE_MAX) →
      (∀ x ∈ q, x < g.size ∧ entry dte x ≠ USIZE_MAX) →
      ∃ q2 dte2 pfe2,
        phaseBScan g 0 dts pfs current ns q dte pfe
          = some (.cont q2 dte2 pfe2) ∧
        dte2.length = g.size ∧ pfe2.length = g.size ∧
        entry dte2 current ≠ USIZE_MAX ∧
        (∀ x, entry dte2 x ≠ USIZE_MAX →
          entry dte2 x + dte2.count USIZE_MAX ≤ g.size) ∧
        (∀ x, entry dte2 x ≠ USIZE_MAX → entry dts x ≠ USIZE_MAX) ∧
        q2.length + dte2.count USIZE_MAX
          = q.length + dte.count USIZE_MAX ∧
        (∀ x ∈ q2, x < g.size ∧ entry dte2 x ≠ USIZE_MAX) := by
  intro ns
  induction ns with
  | nil =>
      intro q dte pfe hdel hpel _ hec hbnde hlink hq
      exact ⟨q, dte, pfe, rfl, hdel, hpel, hec, hbnde, hlink, rfl, hq⟩
  | cons v rest ih =>
      intro q dte pfe hdel hpel hadj hec hbnde hlink hq
      have hvadj : v ∈ g.adj current := hadj v (by simp)
      have hvlt : v < g.size := adj_entries_lt hWF hvadj
      have hvdte : v < dte.length := by rw [hdel]; exact hvlt
      have hcdte : current < dte.length := by rw [hdel]; exact hcur
      have hdveq : dte[v]? = some (entry dte v) := by
        rw [entry_lt hvdte, List.getElem?_eq_getElem hvdte]
      have hcget : dte[current]? = some (entry dte current) := by
        rw [entry_lt hcdte, List.getElem?_eq_getElem hcdte]
      have hdtsv : entry dts v ≠ USIZE_MAX := hclo current hdtsc v hvadj
      have hvdts : v < dts.length := by
        by_contra hcon
        apply hdtsv
        unfold entry
        rw [List.getElem?_eq_none (by omega)]
        rfl
      have hdtsget : dts[v]? = some (entry dts v) := by
        rw [entry_lt hvdts, List.getElem?_eq_getElem hvdts]
      have hdc : entry dte current + dte.count USIZE_MAX ≤ g.size :=
        hbnde current hec
      have hMbig : 2 * g.size + 2 < USIZE_MAX := by
        have h1 := hWF.2.2
        have h2 : (2 : Nat) ^ 61 * 2 + 2 < USIZE_MAX := by
          norm_num [USIZE_MAX]
        omega
      have hcadd1 : cadd (entry dte current) 1
          = some (entry dte current + 1) := by
        unfold cadd
        rw [if_pos (by omega)]
      by_cases hdv : entry dte v = USIZE_MAX
      · -- first visit: v is discovered, but the success sum is ≥ 1 ≠ 0
        have hcount1 : 0 < dte.count USIZE_MAX := by
          have := count_pos_of_entry hvdte
          rw [hdv] at this
          exact this
        have hd1ne : entry dte current + 1 ≠ USIZE_MAX := by omega
        have hset1 : setN dte v (entry dte current + 1)
            = some (dte.set v (entry dte current + 1)) := by
          unfold setN
          rw [if_pos hvdte]
        have hset2 : setN pfe v current = some (pfe.set v current) := by
          unfold setN
          rw [if_pos (by rw [hpel]; exact hvlt)]
        set dte' := dte.set v (entry dte current + 1) with hdte'
        have hentry' : ∀ x, entry dte' x
            = if v = x then entry dte current + 1 else entry dte x :=
          fun x => entry_set hvdte _ x
        have hgetv' : dte'[v]? = some (entry dte current + 1) := by
          have hlt : v < dte'.length := by rw [hdte']; simpa using hvdte
          rw [List.getElem?_eq_getElem hlt, ← entry_lt hlt, hentry' v,
            if_pos rfl]
        have hcadd2 : cadd (entry dts v) (entry dte current + 1)
            = some (entry dts v + (entry dte current + 1)) := by
          unfold cadd
          rw [if_pos (by have := hbnd v hdtsv; omega)]
        have hsum_ne : ¬ entry dts v + (entry dte current + 1) = 0 := by
          omega
        have hcount' : dte'.count USIZE_MAX = dte.count USIZE_MAX - 1 := by
          rw [hdte', count_set hvdte]
          rw [if_pos (by rw [← entry_lt hvdte]; exact hdv), if_neg hd1ne]
          omega
        have hdel' : dte'.length = g.size := by rw [hdte']; simpa using hdel
        have hpel' : (pfe.set v current).length = g.size := by
          simpa using hpel
        have hec' : entry dte' current ≠ USIZE_MAX := by
          rw [hentry' current,
            if_neg (fun hvc : v = current => hec (hvc ▸ hdv))]
          exact hec
      -- invariants for the extended state
        have hbnde' : ∀ x, entry dte' x ≠ USIZE_MAX →
            entry dte' x + dte'.count USIZE_MAX ≤ g.size := by
          intro x hx
          rw [hentry' x] at hx ⊢
          rw [hcount']
          by_cases hvx : v = x
          · rw [if_pos hvx] at hx ⊢
            omega
          · rw [if_neg hvx] at hx ⊢
            have := hbnde x hx
            omega
        have hlink' : ∀ x, entry dte' x ≠ USIZE_MAX →
            entry dts x ≠ USIZE_MAX := by
          intro x hx
          rw [hentry' x] at hx
          by_cases hvx : v = x
          · exact hvx ▸ hdtsv
          · rw [if_neg hvx] at hx
            exact hlink x hx
        have hq' : ∀ x ∈ q ++ [v], x < g.size ∧
            entry dte' x ≠ USIZE_MAX := by
          intro x hx
          rcases List.mem_append.1 hx with hx' | hx'
          · obtain ⟨h1, h2⟩ := hq x hx'
            refine ⟨h1, ?_⟩
            rw [hentry' x, if_neg (fun hvc : v = x => h2 (hvc ▸ hdv))]
            exact h2
          · have hxv : x = v := by simpa using hx'
            subst hxv
            refine ⟨hvlt, ?_⟩
            rw [hentry' x, if_pos rfl]
            exact hd1ne
        obtain ⟨q2, dte2, pfe2, heq, h1, h2, h3, h4, h5, h6, h7⟩ :=
          ih (q ++ [v]) dte' (pfe.set v current) hdel' hpel'
            (fun x hx => hadj x (by simp [hx])) hec' hbnde' hlink' hq'
        refine ⟨q2, dte2, pfe2, ?_, h1, h2, h3, h4, h5, ?_, h7⟩
        · simp only [phaseBScan, Option.bind_eq_bind, hdveq,
            Option.some_bind, if_pos hdv, hcget, hcadd1, hset1, hset2,
            hdtsget, hgetv', hcadd2, if_neg hsum_ne, heq,
            eq_self_iff_true, if_true]
        · rw [h6]
          simp only [List.length_append, List.length_singleton]
          rw [hcount']
          omega
      · -- already visited: the `< 0` re-relaxation guard rejects
        have hdsvget : dts[v]? = some (entry dts v) := hdtsget
        have hlinkv : entry dts v ≠ USIZE_MAX := hdtsv
        have hcadd3 : cadd (entry dte current) (entry dts v)
            = some (entry dte current + entry dts v) := by
          unfold cadd
          rw [if_pos (by have := hbnd v hlinkv; omega)]
        have hnotlt : ¬ entry dte current + entry dts v < 0 := by omega
        obtain ⟨q2, dte2, pfe2, heq, h1, h2, h3, h4, h5, h6, h7⟩ :=
          ih q dte pfe hdel hpel (fun x hx => hadj x (by simp [hx])) hec
            hbnde hlink hq
        refine ⟨q2, dte2, pfe2, ?_, h1, h2, h3, h4, h5, h6, h7⟩
        by_cases hlt : entry dte v < entry dte current + 1
        · simp only [phaseBScan, Option.bind_eq_bind, hdveq,
            Option.some_bind, if_neg hdv, hcget, hcadd1, if_pos hlt,
            hdsvget, hcadd3, if_neg hnotlt, Bool.false_eq_true, if_false,
            heq]
        · simp only [phaseBScan, Option.bind_eq_bind, hdveq,
            Option.some_bind, if_neg hdv, hcget, hcadd1, if_neg hlt,
            Bool.false_eq_true, if_false, heq]

/-- With `distance = 0` the phase-B loop always drains its queue and
returns `NotFound`. -/
theorem phaseB0Loop_ok {g : Graph} (hWF : g.WF) {dts pfs : List Nat}
    (hbnd : ∀ x, entry dts x ≠ USIZE_MAX → entry dts x ≤ g.size)
    (hclo : ∀ u, entry dts u ≠ USIZE_MAX → ∀ w ∈ g.adj u,
      entry dts w ≠ USIZE_MAX) :
    ∀ (fuel : Nat) (q dte pfe : List Nat),
      dte.length = g.size → pfe.length = g.size →
      (∀ x ∈ q, x < g.size ∧ entry dte x ≠ USIZE_MAX) →
      (∀ x, entry dte x ≠ USIZE_MAX →
        entry dte x + dte.count USIZE_MAX ≤ g.size) →
      (∀ x, entry dte x ≠ USIZE_MAX → entry dts x ≠ USIZE_MAX) →
      q.length + dte.count USIZE_MAX < fuel →
      phaseBLoop g 0 dts pfs fuel q dte pfe = some none := by
  intro fuel
  induction fuel with
  | zero => intro q dte pfe _ _ _ _ _ hm; omega
  | succ fuel ih =>
      intro q dte pfe hdel hpel hq hbnde hlink hm
      cases hlast : q.getLast? with
      | none =>
          unfold phaseBLoop
          rw [hlast]
      | some current =>
          have hcq : current ∈ q := List.mem_of_mem_getLast? hlast
          obtain ⟨hclt, hcne⟩ := hq current hcq
          have hqne : q ≠ [] := by
            intro hc
            rw [hc] at hlast
            simp at hlast
          have hcdata : current < g.data.length := by
            rw [hWF.1]
            exact hclt
          have hadjget : g.data[current]? = some (g.adj current) := by
            unfold Graph.adj
            rw [List.getElem?_eq_getElem hcdata]
            rfl
          obtain ⟨q2, dte2, pfe2, heq, h1, h2, h3, h4, h5, h6, h7⟩ :=
            @phaseB0Scan_ok g hWF dts pfs hbnd hclo current hclt
              (hlink current hcne)
              (g.adj current) q.dropLast dte pfe hdel hpel
              (fun x hx => hx) hcne hbnde hlink
              (fun x hx => hq x (List.mem_of_mem_dropLast hx))
          have hrec := ih q2 dte2 pfe2 h1 h2 h7 h4 h5 (by
            have hql : q.dropLast.length = q.length - 1 :=
              List.length_dropLast q
            have hqpos : 0 < q.length := List.length_pos.2 hqne
            omega)
          unfold phaseBLoop
          rw [hlast]
          simp only [Option.bind_eq_bind, hadjget, Option.some_bind, heq,
            Option.some_bind, hrec]

/-- C4 (amended): for every well-formed graph and in-range vertex `v`,
`fixedLengthSearch(g, v, v, 1)` returns `NotFound` — the code has no
start-equals-end shortcut and can never produce the one-vertex path. -/
theorem C4_amended {g : Graph} {v : Nat} (hWF : g.WF) (hv : v < g.size) :
    fixed_length_bfs g v v 1 = some none := by
  have hc : csub 1 1 = some 0 := by simp [csub]
  have hset1 : setN (List.replicate g.size USIZE_MAX) v 0
      = some ((List.replicate g.size USIZE_MAX).set v 0) := by
    unfold setN
    rw [if_pos (by simpa using hv)]
  obtain ⟨dts, pfs, heqA, hdl, hpl, hstart, hbnd, hclo⟩ :=
    fixed_length_bfs_phaseA hWF hv
  have hM0 : (0 : Nat) ≠ USIZE_MAX := by norm_num [USIZE_MAX]
  have hloop := @phaseB0Loop_ok g hWF dts pfs hbnd hclo (phaseBFuel g 1) [v]
    ((List.replicate g.size USIZE_MAX).set v 0)
    (List.replicate g.size USIZE_MAX)
    (by simp) (by simp)
    (by
      intro x hx
      have hxv : x = v := by simpa using hx
      subst hxv
      refine ⟨hv, ?_⟩
      rw [entry_init hv, if_pos rfl]
      exact hM0)
    (by
      intro x hx
      rw [entry_init hv] at hx ⊢
      by_cases h : v = x
      · rw [if_pos h, count_init hv]
        omega
      · rw [if_neg h] at hx
        exact absurd rfl hx)
    (by
      intro x hx
      rw [entry_init hv] at hx
      by_cases h : v = x
      · subst h
        rw [hstart]
        exact hM0
      · rw [if_neg h] at hx
        exact absurd rfl hx)
    (by
      rw [count_init hv]
      simp only [List.length_singleton]
      unfold phaseBFuel
      omega)
  simp only [fixed_length_bfs, Option.bind_eq_bind, hc, Option.some_bind,
    hset1, heqA, Option.some_bind, hloop]

/-- Witness for the amended C4 on the 4-cycle at vertex 1. -/
theorem C4_amended_witness : fixed_length_bfs cyc4 1 1 1 = some none :=
  C4_amended (by decide) (by decide)

/-! ## `bfs` lemmas for `start = end` -/

/-- When `end` is already discovered, a `bfs` neighbor scan can never hit
the early `return true` (that requires discovering `end` as a
*previously unvisited* neighbor), so it continues, preserving the
invariants and measure. -/
theorem bfsScan_no_find {g : Graph} (hWF : g.WF) {endv current : Nat}
    (hcur : current < g.size) :
    ∀ (ns q dist pred : List Nat),
      dist.length = g.size → pred.length = g.size →
      (∀ x ∈ ns, x < g.size) →
      entry dist current ≠ USIZE_MAX →
      entry dist endv ≠ USIZE_MAX →
      (∀ x, entry dist x ≠ USIZE_MAX →
        entry dist x + dist.count USIZE_MAX ≤ g.size) →
      (∀ x ∈ q, x < g.size ∧ entry dist x ≠ USIZE_MAX) →
      ∃ q2 dist2 pred2,
        bfsScan endv current ns q dist pred
          = some (.cont q2 dist2 pred2) ∧
        dist2.length = g.size ∧ pred2.length = g.size ∧
        entry dist2 endv ≠ USIZE_MAX ∧
        (∀ x, entry dist2 x ≠ USIZE_MAX →
          entry dist2 x + dist2.count USIZE_MAX ≤ g.size) ∧
        q2.length + dist2.count USIZE_MAX
          = q.length + dist.count USIZE_MAX ∧
        (∀ x ∈ q2, x < g.size ∧ entry dist2 x ≠ USIZE_MAX) := by
  intro ns
  induction ns with
  | nil =>
      intro q dist pred hdl hprl _ hc hend hbound hq
      exact ⟨q, dist, pred, rfl, hdl, hprl, hend, hbound, rfl, hq⟩
  | cons v rest ih =>
      intro q dist pred hdl hprl hns hc hend hbound hq
      have hvlt : v < g.size := hns v (by simp)
      have hvd : v < dist.length := by rw [hdl]; exact hvlt
      have hcd : current < dist.length := by rw [hdl]; exact hcur
      have hdveq : dist[v]? = some (entry dist v) := by
        rw [entry_lt hvd, List.getElem?_eq_getElem hvd]
      by_cases hdv : entry dist v = USIZE_MAX
      · have hvne : v ≠ endv := fun hc' => hend (hc' ▸ hdv)
        have hcget : dist[current]? = some (entry dist current) := by
          rw [entry_lt hcd, List.getElem?_eq_getElem hcd]
        have hcount1 : 0 < dist.count USIZE_MAX := by
          have := count_pos_of_entry hvd
          rw [hdv] at this
          exact this
        have hd1ne : entry dist current + 1 ≠ USIZE_MAX := by
          have h1 := hbound current hc
          have h2 := size_lt_max hWF
          omega
        have hcadd : cadd (entry dist current) 1
            = some (entry dist current + 1) := by
          have h1 := hbound current hc
          have h2 := size_lt_max hWF
          unfold cadd
          rw [if_pos (by omega)]
        have hset1 : setN dist v (entry dist current + 1)
            = some (dist.set v (entry dist current + 1)) := by
          unfold setN
          rw [if_pos hvd]
        have hset2 : setN pred v current = some (pred.set v current) := by
          unfold setN
          rw [if_pos (by rw [hprl]; exact hvlt)]
        set dist' := dist.set v (entry dist current + 1) with hdist'
        have hentry' : ∀ x, entry dist' x
            = if v = x then entry dist current + 1 else entry dist x :=
          fun x => entry_set hvd _ x
        have hcount' : dist'.count USIZE_MAX = dist.count USIZE_MAX - 1 := by
          rw [hdist', count_set hvd]
          rw [if_pos (by rw [← entry_lt hvd]; exact hdv), if_neg hd1ne]
          omega
        have hdl' : dist'.length = g.size := by rw [hdist']; simpa using hdl
        have hc' : entry dist' current ≠ USIZE_MAX := by
          rw [hentry' current,
            if_neg (fun hvc : v = current => hc (hvc ▸ hdv))]
          exact hc
        have hend' : entry dist' endv ≠ USIZE_MAX := by
          rw [hentry' endv, if_neg (fun hvc : v = endv => hvne hvc)]
          exact hend
        have hbound' : ∀ x, entry dist' x ≠ USIZE_MAX →
            entry dist' x + dist'.count USIZE_MAX ≤ g.size := by
          intro x hx
          rw [hentry' x] at hx ⊢
          rw [hcount']
          by_cases hvx : v = x
          · rw [if_pos hvx] at hx ⊢
            have := hbound current hc
            omega
          · rw [if_neg hvx] at hx ⊢
            have := hbound x hx
            omega
        have hq' : ∀ x ∈ q ++ [v], x < g.size ∧
            entry dist' x ≠ USIZE_MAX := by
          intro x hx
          rcases List.mem_append.1 hx with hx' | hx'
          · obtain ⟨h1, h2⟩ := hq x hx'
            refine ⟨h1, ?_⟩
            rw [hentry' x, if_neg (fun hvc : v = x => h2 (hvc ▸ hdv))]
            exact h2
          · have hxv : x = v := by simpa using hx'
            subst hxv
            refine ⟨hvlt, ?_⟩
            rw [hentry' x, if_pos rfl]
            exact hd1ne
        obtain ⟨q2, dist2, pred2, heq, h1, h2, h3, h4, h5, h6⟩ :=
          ih (q ++ [v]) dist' (pred.set v current) hdl'
            (by simpa using hprl) (fun x hx => hns x (by simp [hx])) hc'
            hend' hbound' hq'
        refine ⟨q2, dist2, pred2, ?_, h1, h2, h3, h4, ?_, h6⟩
        · simp only [bfsScan, Option.bind_eq_bind, hdveq, Option.some_bind,
            if_pos hdv, hcget, hcadd, hset1, hset2, if_neg hvne, heq]
        · rw [h5]
          simp only [List.length_append, List.length_singleton]
          rw [hcount']
          omega
      · obtain ⟨q2, dist2, pred2, heq, h1, h2, h3, h4, h5, h6⟩ :=
          ih q dist pred hdl hprl (fun x hx => hns x (by simp [hx])) hc
            hend hbound hq
        refine ⟨q2, dist2, pred2, ?_, h1, h2, h3, h4, h5, h6⟩
        simp only [bfsScan, Option.bind_eq_bind, hdveq, Option.some_bind,
          if_neg hdv, heq]

/-- When `end` starts out discovered, the `bfs` loop drains its queue and
returns `false`. -/
theorem bfsLoop_no_find {g : Graph} (hWF : g.WF) {endv : Nat} :
    ∀ (fuel : Nat) (q dist pred : List Nat),
      dist.length = g.size → pred.length = g.size →
      (∀ x ∈ q, x < g.size ∧ entry dist x ≠ USIZE_MAX) →
      entry dist endv ≠ USIZE_MAX →
      (∀ x, entry dist x ≠ USIZE_MAX →
        entry dist x + dist.count USIZE_MAX ≤ g.size) →
      q.length + dist.count USIZE_MAX < fuel →
      ∃ pred2, bfsLoop g endv fuel q dist pred = some (false, pred2) := by
  intro fuel
  induction fuel with
  | zero => intro q dist pred _ _ _ _ _ hm; omega
  | succ fuel ih =>
      intro q dist pred hdl hprl hq hend hbound hm
      cases q with
      | nil => exact ⟨pred, rfl⟩
      | cons current q' =>
          obtain ⟨hclt, hcne⟩ := hq current (by simp)
          have hcdata : current < g.data.length := by
            rw [hWF.1]
            exact hclt
          have hadjget : g.data[current]? = some (g.adj current) := by
            unfold Graph.adj
            rw [List.getElem?_eq_getElem hcdata]
            rfl
          obtain ⟨q2, dist2, pred2, heq, h1, h2, h3, h4, h5, h6⟩ :=
            bfsScan_no_find hWF hclt (g.adj current) q' dist pred hdl hprl
              (fun x hx => adj_entries_lt hWF hx) hcne hend hbound
              (fun x hx => hq x (by simp [hx]))
          obtain ⟨pred3, hrec⟩ := ih q2 dist2 pred2 h1 h2 h6 h3 h4 (by
            simp only [List.length_cons] at hm
            omega)
          refine ⟨pred3, ?_⟩
          simp only [bfsLoop, Option.bind_eq_bind, hadjget,
            Option.some_bind, heq, Option.some_bind, hrec]

/-- C10: `shortestPath(g, v, v)` always returns `NotFound`: `v` is marked
visited before the loop, and the success test only fires when `end` is
discovered as a not-yet-visited neighbor. -/
theorem C10_shortest_path_self {g : Graph} {v : Nat} (hWF : g.WF)
    (hv : v < g.size) : shortest_path g v v = some none := by
  have hM0 : (0 : Nat) ≠ USIZE_MAX := by norm_num [USIZE_MAX]
  have hset1 : setN (List.replicate g.size USIZE_MAX) v 0
      = some ((List.replicate g.size USIZE_MAX).set v 0) := by
    unfold setN
    rw [if_pos (by simpa using hv)]
  obtain ⟨pred2, hloop⟩ := bfsLoop_no_find hWF (g.size + 2) [v]
    ((List.replicate g.size USIZE_MAX).set v 0)
    (List.replicate g.size USIZE_MAX)
    (by simp) (by simp)
    (by
      intro x hx
      have hxv : x = v := by simpa using hx
      subst hxv
      refine ⟨hv, ?_⟩
      rw [entry_init hv, if_pos rfl]
      exact hM0)
    (by
      rw [entry_init hv, if_pos rfl]
      exact hM0)
    (by
      intro x hx
      rw [entry_init hv] at hx ⊢
      by_cases h : v = x
      · rw [if_pos h, count_init hv]
        omega
      · rw [if_neg h] at hx
        exact absurd rfl hx)
    (by
      rw [count_init hv]
      simp only [List.length_singleton]
      omega)
  simp only [shortest_path, bfs, Option.bind_eq_bind, hset1,
    Option.some_bind, hloop, Bool.false_eq_true, if_false]

/-- Witness for C10, on the 4-cycle at vertex 2. -/
theorem C10_witness : shortest_path cyc4 2 2 = some none :=
  C10_shortest_path_self (by decide) (by decide)

/-! ## Walk lemmas -/

/-- A finite `entry` forces an in-range index. -/
theorem entry_ne_lt {l : List Nat} {x : Nat}
    (h : entry l x ≠ USIZE_MAX) : x < l.length := by
  by_contra hx
  apply h
  unfold entry
  rw [List.getElem?_eq_none (by omega)]
  rfl

/-- Appending one edge to the end of a walk. -/
theorem hasWalkB_snoc {g : Graph} :
    ∀ (n u x v : Nat), hasWalkB g u x n = true → v ∈ g.adj x →
      hasWalkB g u v (n + 1) = true := by
  intro n
  induction n with
  | zero =>
      intro u x v hw hv
      have hux : u = x := by simpa [hasWalkB] using hw
      subst hux
      simp only [hasWalkB, List.any_eq_true]
      exact ⟨v, hv, by simp [hasWalkB]⟩
  | succ n ih =>
      intro u x v hw hv
      rw [hasWalkB, List.any_eq_true] at hw
      rw [hasWalkB, List.any_eq_true]
      obtain ⟨w, hwmem, hww⟩ := hw
      exact ⟨w, hwmem, ih w x v hww hv⟩

/-- Splitting the last edge off a nonempty walk. -/
theorem hasWalkB_unsnoc {g : Graph} :
    ∀ (n u v : Nat), hasWalkB g u v (n + 1) = true →
      ∃ x, hasWalkB g u x n = true ∧ v ∈ g.adj x := by
  intro n
  induction n with
  | zero =>
      intro u v hw
      simp only [hasWalkB, List.any_eq_true] at hw
      obtain ⟨w, hwmem, hww⟩ := hw
      have hwv : w = v := by simpa [hasWalkB] using hww
      subst hwv
      exact ⟨u, by simp [hasWalkB], hwmem⟩
  | succ n ih =>
      intro u v hw
      rw [hasWalkB, List.any_eq_true] at hw
      obtain ⟨w, hwmem, hww⟩ := hw
      obtain ⟨x, hx1, hx2⟩ := ih w v hww
      refine ⟨x, ?_, hx2⟩
      rw [hasWalkB, List.any_eq_true]
      exact ⟨w, hwmem, hx1⟩

/-- A property closed under adjacency propagates along walks. -/
theorem hasWalkB_closed {g : Graph} {P : Nat → Prop}
    (hcl : ∀ x, P x → ∀ y ∈ g.adj x, P y) :
    ∀ (n s x : Nat), P s → hasWalkB g s x n = true → P x := by
  intro n
  induction n with
  | zero =>
      intro s x hs hw
      have hsx : s = x := by simpa [hasWalkB] using hw
      exact hsx ▸ hs
  | succ n ih =>
      intro s x hs hw
      simp only [hasWalkB, List.any_eq_true] at hw
      obtain ⟨w, hwmem, hww⟩ := hw
      exact ih w x (hcl s hs w hwmem) hww

/-- Extending a consecutive-edge list by one adjacent vertex. -/
theorem consecEdges_snoc (g : Graph) :
    ∀ (l : List Nat) (x : Nat), consecEdges g l = true →
      (∀ b, l.getLast? = some b → hasEdgeB g b x = true) →
      consecEdges g (l ++ [x]) = true := by
  intro l
  induction l with
  | nil => intro x _ _; rfl
  | cons a t ih =>
      intro x hc hb
      cases t with
      | nil =>
          simp only [List.cons_append, List.nil_append, consecEdges,
            Bool.and_eq_true]
          exact ⟨hb a rfl, trivial⟩
      | cons b t' =>
          simp only [consecEdges, Bool.and_eq_true] at hc
          obtain ⟨h1, h2⟩ := hc
          have h3 := ih x h2 (fun c hcl => hb c (by
            rw [List.getLast?_cons_cons]
            exact hcl))
          simp only [List.cons_append, consecEdges, Bool.and_eq_true]
          refine ⟨h1, ?_⟩
          simpa using h3

/-- Walking the `bfs` predecessor chain from a vertex at finite distance
`k` reaches the source in exactly `k` steps, yielding (after the
reversal in `shortest_path`) a duplicate-free edge path. -/
theorem predWalk_chain {g : Graph} {s : Nat} {dist pred : List Nat}
    (hWF : g.WF) (hinv : BfsInv g s dist pred) :
    ∀ (k : Nat), ∀ (x : Nat), entry dist x = k → k ≠ USIZE_MAX →
      ∀ (fuel : Nat), k < fuel → ∀ (acc : List Nat),
      ∃ chain, predWalk pred fuel x acc = some (acc ++ chain) ∧
        chain.length = k ∧
        (x :: chain).getLast? = some s ∧
        (x :: chain).Nodup ∧
        (∀ y ∈ x :: chain, entry dist y ≤ k) ∧
        consecEdges g ((x :: chain).reverse) = true := by
  obtain ⟨hdl, hpl, hS, hCs, hC0, _hbd, _hB, hC, _hD3⟩ := hinv
  intro k
  induction k with
  | zero =>
      intro x hx _ fuel hfuel acc
      have hxs : x = s := hC0 x hx
      subst hxs
      have hsp : x < pred.length := by
        rw [hpl]
        have := entry_ne_lt (l := dist) (x := x) (by
          rw [hx]
          norm_num [USIZE_MAX])
        rw [hdl] at this
        exact this
      have hpget : pred[x]? = some USIZE_MAX := by
        rw [← hCs, entry_lt hsp, List.getElem?_eq_getElem hsp]
      cases fuel with
      | zero => omega
      | succ f =>
          refine ⟨[], ?_, rfl, rfl, by simp, ?_, rfl⟩
          · simp only [predWalk, Option.bind_eq_bind, hpget,
              Option.some_bind]
            simp
          · intro y hy
            have hyx : y = x := by simpa using hy
            rw [hyx, hx]
  | succ k ih =>
      intro x hx hkM fuel hfuel acc
      have hxM : entry dist x ≠ USIZE_MAX := by
        rw [hx]
        exact hkM
      have hxd : x < dist.length := entry_ne_lt hxM
      have hxs : x ≠ s := by
        intro hxs'
        rw [hxs', hS] at hx
        omega
      obtain ⟨hu1, hu2, hu3, hu4⟩ := hC x hxs hxM
      have hud : entry dist (entry pred x) = k := by omega
      have hxp : x < pred.length := by rw [hpl, ← hdl]; exact hxd
      have hpget : pred[x]? = some (entry pred x) := by
        rw [entry_lt hxp, List.getElem?_eq_getElem hxp]
      have huM : entry pred x ≠ USIZE_MAX := by
        have := size_lt_max hWF
        omega
      cases fuel with
      | zero => omega
      | succ f =>
          obtain ⟨chain, heq, hlen, hlast, hnd, hle, hce⟩ :=
            ih (entry pred x) hud (by rw [← hud]; exact hu2) f
              (by omega) (acc ++ [entry pred x])
          refine ⟨entry pred x :: chain, ?_, by simp [hlen], ?_, ?_, ?_, ?_⟩
          · simp only [predWalk, Option.bind_eq_bind, hpget,
              Option.some_bind, if_neg huM, heq, List.append_assoc,
              List.singleton_append]
          · rw [List.getLast?_cons_cons]
            exact hlast
          · rw [List.nodup_cons]
            refine ⟨?_, hnd⟩
            intro hxmem
            have := hle x hxmem
            omega
          · intro y hy
            rcases List.mem_cons.1 hy with hy' | hy'
            · subst hy'
              omega
            · have := hle y hy'
              omega
          · have hrev : (x :: entry pred x :: chain).reverse
                = (entry pred x :: chain).reverse ++ [x] := by
              simp
            rw [hrev]
            refine consecEdges_snoc g _ x hce ?_
            intro b hb
            rw [List.getLast?_reverse] at hb
            have hbu : entry pred x = b := by simpa using hb
            subst hbu
            unfold hasEdgeB
            simpa using hu3

/-- One neighbor scan of `path.rs::bfs`, under the full invariant: either
the scan discovers `end` (the Rust `return true`) leaving a state whose
predecessor chain is exact, or it continues with every invariant
re-established, all of `current`'s neighbors discovered, and the
termination measure balanced. -/
theorem bfsScanInv_ok {g : Graph} (hWF : g.WF) {s e current dc : Nat}
    (hse : s ≠ e) (hcur : current < g.size) :
    ∀ (ns q dist pred : List Nat),
      BfsInv g s dist pred →
      (∀ v ∈ ns, v ∈ g.adj current) →
      entry dist current = dc →
      dc ≠ USIZE_MAX →
      entry dist e = USIZE_MAX →
      (∀ x ∈ q, x < g.size ∧ entry dist x ≠ USIZE_MAX ∧
        (entry dist x = dc ∨ entry dist x = dc + 1)) →
      (∀ x, entry dist x ≠ USIZE_MAX → x ∉ q → x ≠ current →
        ∀ y ∈ g.adj x, entry dist y ≠ USIZE_MAX) →
      (∀ y ∈ g.adj current, y ∈ ns ∨ entry dist y ≠ USIZE_MAX) →
      (∀ x n, entry dist x = USIZE_MAX → hasWalkB g s x n = true →
        dc ≤ n) →
      (∃ dist2 pred2,
          bfsScan e current ns q dist pred = some (.found pred2) ∧
          BfsInv g s dist2 pred2 ∧
          entry dist2 e = dc + 1) ∨
      (∃ q2 dist2 pred2,
          bfsScan e current ns q dist pred = some (.cont q2 dist2 pred2) ∧
          BfsInv g s dist2 pred2 ∧
          (∀ x, entry dist x ≠ USIZE_MAX → entry dist2 x = entry dist x) ∧
          entry dist2 e = USIZE_MAX ∧
          (∃ pushed, q2 = q ++ pushed ∧
            ∀ x ∈ pushed, entry dist2 x = dc + 1) ∧
          (∀ x ∈ q2, x < g.size ∧ entry dist2 x ≠ USIZE_MAX ∧
            (entry dist2 x = dc ∨ entry dist2 x = dc + 1)) ∧
          (∀ x, entry dist2 x ≠ USIZE_MAX → x ∉ q2 → x ≠ current →
            ∀ y ∈ g.adj x, entry dist2 y ≠ USIZE_MAX) ∧
          (∀ y ∈ g.adj current, entry dist2 y ≠ USIZE_MAX) ∧
          (∀ x n, entry dist2 x = USIZE_MAX → hasWalkB g s x n = true →
            dc ≤ n) ∧
          q2.length + dist2.count USIZE_MAX
            = q.length + dist.count USIZE_MAX) := by
  intro ns
  induction ns with
  | nil =>
      intro q dist pred hinv hns hdc hdcM heM hq hD2 hpc hD4
      right
      refine ⟨q, dist, pred, rfl, hinv, fun x _ => rfl, heM,
        ⟨[], by simp, by simp⟩, hq, hD2, ?_, hD4, rfl⟩
      intro y hy
      rcases hpc y hy with h | h
      · simp at h
      · exact h
  | cons v rest ih =>
      intro q dist pred hinv hns hdc hdcM heM hq hD2 hpc hD4
      obtain ⟨hdl, hpl, hS, hCs, hC0, hbd, hB, hC, hD3⟩ := hinv
      have hvadj : v ∈ g.adj current := hns v (by simp)
      have hvlt : v < g.size := adj_entries_lt hWF hvadj
      have hvd : v < dist.length := by rw [hdl]; exact hvlt
      have hcd : current < dist.length := by rw [hdl]; exact hcur
      have hdveq : dist[v]? = some (entry dist v) := by
        rw [entry_lt hvd, List.getElem?_eq_getElem hvd]
      by_cases hdv : entry dist v = USIZE_MAX
      · -- v is newly discovered
        have hcget : dist[current]? = some dc := by
          rw [← hdc, entry_lt hcd, List.getElem?_eq_getElem hcd]
        have hcount1 : 0 < dist.count USIZE_MAX := by
          have := count_pos_of_entry hvd
          rw [entry_lt hvd] at hdv
          rw [entry_lt hvd, hdv] at this
          exact this
        have hdcM' : entry dist current ≠ USIZE_MAX := by rw [hdc]; exact hdcM
        have hbdc := hbd current hdcM'
        rw [hdc] at hbdc
        have hd1ne : dc + 1 ≠ USIZE_MAX := by
          have := size_lt_max hWF
          omega
        have hcadd : cadd dc 1 = some (dc + 1) := by
          have := size_lt_max hWF
          unfold cadd
          rw [if_pos (by omega)]
        have hset1 : setN dist v (dc + 1)
            = some (dist.set v (dc + 1)) := by
          unfold setN
          rw [if_pos hvd]
        have hset2 : setN pred v current = some (pred.set v current) := by
          unfold setN
          rw [if_pos (by rw [hpl]; exact hvlt)]
        set dist' := dist.set v (dc + 1) with hdistdef
        set pred' := pred.set v current with hpreddef
        have hentry' : ∀ x, entry dist' x
            = if v = x then dc + 1 else entry dist x :=
          fun x => entry_set hvd _ x
        have hpentry' : ∀ x, entry pred' x
            = if v = x then current else entry pred x :=
          fun x => entry_set (by rw [hpl]; exact hvlt) _ x
        have hvne_s : v ≠ s := by
          intro h
          rw [h, hS] at hdv
          norm_num [USIZE_MAX] at hdv
        have hvne_c : v ≠ current := by
          intro h
          rw [h, hdc] at hdv
          exact hdcM hdv
        have hcount' : dist'.count USIZE_MAX = dist.count USIZE_MAX - 1 := by
          rw [hdistdef, count_set hvd]
          rw [if_pos (by rw [← entry_lt hvd]; exact hdv), if_neg hd1ne]
          omega
        have hdl' : dist'.length = g.size := by
          rw [hdistdef]
          simpa using hdl
        have hpl' : pred'.length = g.size := by
          rw [hpreddef]
          simpa using hpl
        -- the exactness bound for the newly labelled vertex
        have hD3v : ∀ n, hasWalkB g s v n = true → dc + 1 ≤ n := by
          intro n hw
          cases n with
          | zero =>
              have hsv : s = v := by simpa [hasWalkB] using hw
              rw [← hsv, hS] at hdv
              norm_num [USIZE_MAX] at hdv
          | succ m =>
              obtain ⟨u, hu1, hu2⟩ := hasWalkB_unsnoc m s v hw
              by_cases huM : entry dist u = USIZE_MAX
              · have := hD4 u m huM hu1
                omega
              · by_cases huq : u ∈ q
                · obtain ⟨_, _, hval⟩ := hq u huq
                  have := hD3 u m huM hu1
                  rcases hval with h | h <;> omega
                · by_cases huc : u = current
                  · have h1 := hD3 u m huM hu1
                    rw [huc, hdc] at h1
                    omega
                  · exact absurd (hD2 u huM huq huc v hu2) (by
                      rw [hdv]
                      intro h
                      exact h rfl)
        have hwalkv : hasWalkB g s v (dc + 1) = true := by
          have hwc := hB current hdcM'
          rw [hdc] at hwc
          exact hasWalkB_snoc dc s current v hwc hvadj
        have hinv' : BfsInv g s dist' pred' := by
          refine ⟨hdl', hpl', ?_, ?_, ?_, ?_, ?_, ?_, ?_⟩
          · rw [hentry' s, if_neg (fun h : v = s => hvne_s h)]
            exact hS
          · rw [hpentry' s, if_neg (fun h : v = s => hvne_s h)]
            exact hCs
          · intro x hx
            rw [hentry' x] at hx
            by_cases hvx : v = x
            · rw [if_pos hvx] at hx
              omega
            · rw [if_neg hvx] at hx
              exact hC0 x hx
          · intro x hx
            rw [hentry' x] at hx ⊢
            rw [hcount']
            by_cases hvx : v = x
            · rw [if_pos hvx] at hx ⊢
              omega
            · rw [if_neg hvx] at hx ⊢
              have := hbd x hx
              omega
          · intro x hx
            rw [hentry' x] at hx ⊢
            by_cases hvx : v = x
            · rw [if_pos hvx] at hx ⊢
              rw [← hvx]
              exact hwalkv
            · rw [if_neg hvx] at hx ⊢
              exact hB x hx
          · intro x hxs hx
            rw [hentry' x] at hx
            rw [hpentry' x]
            by_cases hvx : v = x
            · rw [if_pos hvx] at hx ⊢
              rw [hentry' current, if_neg (fun h : v = current => hvne_c h),
                hentry' x, if_pos hvx, hdc]
              rw [← hvx]
              exact ⟨hcur, hdcM, hvadj, rfl⟩
            · rw [if_neg hvx] at hx ⊢
              obtain ⟨h1, h2, h3, h4⟩ := hC x hxs hx
              have hpxv : v ≠ entry pred x := by
                intro h
                rw [← h] at h2
                exact h2 hdv
              refine ⟨h1, ?_, h3, ?_⟩
              · rw [hentry' (entry pred x), if_neg hpxv]
                exact h2
              · rw [hentry' (entry pred x), if_neg hpxv, hentry' x,
                  if_neg hvx]
                exact h4
          · intro x n hx hw
            rw [hentry' x] at hx ⊢
            by_cases hvx : v = x
            · rw [if_pos hvx]
              rw [← hvx] at hw
              exact hD3v n hw
            · rw [if_neg hvx] at hx ⊢
              exact hD3 x n hx hw
        have hpres' : ∀ x, entry dist x ≠ USIZE_MAX →
            entry dist' x = entry dist x := by
          intro x hx
          rw [hentry' x, if_neg (fun h : v = x => hx (h ▸ hdv))]
        by_cases hve : v = e
        · -- the early `return true`
          left
          refine ⟨dist', pred', ?_, hinv', ?_⟩
          · simp only [bfsScan, Option.bind_eq_bind, hdveq,
              Option.some_bind, if_pos hdv, hcget, hcadd, hset1, hset2,
              Option.some_bind, if_pos hve]
          · rw [hentry' e, if_pos hve]
        · -- continue scanning the remaining neighbors
          have heM' : entry dist' e = USIZE_MAX := by
            rw [hentry' e, if_neg hve]
            exact heM
          have hdc'' : entry dist' current = dc := by
            rw [hentry' current, if_neg (fun h : v = current => hvne_c h)]
            exact hdc
          have hq' : ∀ x ∈ q ++ [v], x < g.size ∧
              entry dist' x ≠ USIZE_MAX ∧
              (entry dist' x = dc ∨ entry dist' x = dc + 1) := by
            intro x hx
            rcases List.mem_append.1 hx with hx' | hx'
            · obtain ⟨h1, h2, h3⟩ := hq x hx'
              rw [hpres' x h2]
              exact ⟨h1, h2, h3⟩
            · have hxv : x = v := by simpa using hx'
              subst hxv
              rw [hentry' x, if_pos rfl]
              exact ⟨hvlt, hd1ne, Or.inr rfl⟩
          have hD2' : ∀ x, entry dist' x ≠ USIZE_MAX → x ∉ q ++ [v] →
              x ≠ current → ∀ y ∈ g.adj x, entry dist' y ≠ USIZE_MAX := by
            intro x hx hxq hxc y hy
            have hxv : x ≠ v := by
              intro h
              exact hxq (by simp [h])
            rw [hentry' x, if_neg (fun h : v = x => hxv h.symm)] at hx
            have hyold := hD2 x hx (fun h => hxq (by simp [h])) hxc y hy
            exact fun h => hyold (by
              rw [hentry' y] at h
              by_cases hvy : v = y
              · rw [← hvy]
                exact hdv
              · rw [if_neg hvy] at h
                exact h)
          have hpc' : ∀ y ∈ g.adj current, y ∈ rest ∨
              entry dist' y ≠ USIZE_MAX := by
            intro y hy
            rcases hpc y hy with h | h
            · rcases List.mem_cons.1 h with h' | h'
              · right
                rw [hentry' y, if_pos h'.symm]
                exact hd1ne
              · left
                exact h'
            · right
              rw [hpres' y h]
              exact h
          have hD4' : ∀ x n, entry dist' x = USIZE_MAX →
              hasWalkB g s x n = true → dc ≤ n := by
            intro x n hx hw
            rw [hentry' x] at hx
            by_cases hvx : v = x
            · rw [if_pos hvx] at hx
              exact absurd hx hd1ne
            · rw [if_neg hvx] at hx
              exact hD4 x n hx hw
          rcases ih (q ++ [v]) dist' pred' hinv'
              (fun x hx => hns x (by simp [hx])) hdc'' hdcM heM' hq' hD2'
              hpc' hD4' with
            ⟨d2, p2, heq, hi2, he2⟩ |
            ⟨q2, d2, p2, heq, hi2, hp2, he2, ⟨pushed, hq2, hpu⟩, hqq2, hd22,
              hadj2, hd42, hm2⟩
          · left
            refine ⟨d2, p2, ?_, hi2, he2⟩
            simp only [bfsScan, Option.bind_eq_bind, hdveq,
              Option.some_bind, if_pos hdv, hcget, hcadd, hset1, hset2,
              Option.some_bind, if_neg hve, heq]
          · right
            refine ⟨q2, d2, p2, ?_, hi2, ?_, he2,
              ⟨v :: pushed, by simp [hq2], ?_⟩, hqq2, hd22, hadj2, hd42,
              ?_⟩
            · simp only [bfsScan, Option.bind_eq_bind, hdveq,
                Option.some_bind, if_pos hdv, hcget, hcadd, hset1, hset2,
                Option.some_bind, if_neg hve, heq]
            · intro x hx
              rw [hp2 x (by rw [hpres' x hx]; exact hx), hpres' x hx]
            · intro x hx
              rcases List.mem_cons.1 hx with hx' | hx'
              · subst hx'
                rw [hp2 x (by rw [hentry' x, if_pos rfl]; exact hd1ne),
                  hentry' x, if_pos rfl]
              · exact hpu x hx'
            · rw [hm2, hcount']
              simp only [List.length_append, List.length_singleton]
              omega
      · -- v was already discovered: skip
        have hpc'' : ∀ y ∈ g.adj current, y ∈ rest ∨
            entry dist y ≠ USIZE_MAX := by
          intro y hy
          rcases hpc y hy with h | h
          · rcases List.mem_cons.1 h with h' | h'
            · right
              rw [h']
              exact hdv
            · left
              exact h'
          · right
            exact h
        rcases ih q dist pred ⟨hdl, hpl, hS, hCs, hC0, hbd, hB, hC, hD3⟩
            (fun x hx => hns x (by simp [hx])) hdc hdcM heM hq hD2 hpc''
            hD4 with
          ⟨d2, p2, heq, hi2, he2⟩ |
          ⟨q2, d2, p2, heq, hi2, hp2, he2, hpsh, hqq2, hd22, hadj2, hd42,
            hm2⟩
        · left
          refine ⟨d2, p2, ?_, hi2, he2⟩
          simp only [bfsScan, Option.bind_eq_bind, hdveq,
            Option.some_bind, if_neg hdv, heq]
        · right
          refine ⟨q2, d2, p2, ?_, hi2, hp2, he2, hpsh, hqq2, hd22, hadj2,
            hd42, hm2⟩
          simp only [bfsScan, Option.bind_eq_bind, hdveq,
            Option.some_bind, if_neg hdv, heq]

/-- Re-basing the frontier lower bound when a vertex is popped: every
undiscovered vertex is at least as far as the popped vertex's level. -/
theorem bfsD4_upgrade {g : Graph} {s : Nat} {q dist : List Nat}
    {d dc : Nat}
    (hS : entry dist s = 0)
    (hD3 : ∀ x n, entry dist x ≠ USIZE_MAX → hasWalkB g s x n = true →
      entry dist x ≤ n)
    (hD2 : ∀ x, entry dist x ≠ USIZE_MAX → x ∉ q →
      ∀ y ∈ g.adj x, entry dist y ≠ USIZE_MAX)
    (hq : ∀ x ∈ q, dc ≤ entry dist x ∧ entry dist x ≠ USIZE_MAX)
    (hdc1 : dc ≤ d + 1)
    (hD4 : ∀ x n, entry dist x = USIZE_MAX → hasWalkB g s x n = true →
      d ≤ n) :
    ∀ x n, entry dist x = USIZE_MAX → hasWalkB g s x n = true → dc ≤ n := by
  intro x n hx hw
  cases n with
  | zero =>
      have hsx : s = x := by simpa [hasWalkB] using hw
      rw [← hsx, hS] at hx
      norm_num [USIZE_MAX] at hx
  | succ m =>
      obtain ⟨u, hu1, hu2⟩ := hasWalkB_unsnoc m s x hw
      by_cases huM : entry dist u = USIZE_MAX
      · have := hD4 u m huM hu1
        omega
      · by_cases huq : u ∈ q
        · obtain ⟨h1, _⟩ := hq u huq
          have := hD3 u m huM hu1
          omega
        · exact absurd (hD2 u huM huq x hu2) (by
            rw [hx]
            intro h
            exact h rfl)

/-- The `path.rs::bfs` loop under the full invariant: it terminates
within the fuel budget and returns either `false` with the discovered
set closed under adjacency and `end` undiscovered, or `true` with `end`
discovered and the invariant (in particular exactness of the predecessor
chain) intact. -/
theorem bfsLoopInv_ok {g : Graph} (hWF : g.WF) {s e : Nat} (hse : s ≠ e) :
    ∀ (fuel : Nat) (q dist pred : List Nat) (d : Nat) (qa qb : List Nat),
      BfsInv g s dist pred →
      entry dist e = USIZE_MAX →
      q = qa ++ qb →
      (∀ x ∈ qa, entry dist x = d) →
      (∀ x ∈ qb, entry dist x = d + 1) →
      (∀ x ∈ q, x < g.size ∧ entry dist x ≠ USIZE_MAX) →
      (∀ x, entry dist x ≠ USIZE_MAX → x ∉ q →
        ∀ y ∈ g.adj x, entry dist y ≠ USIZE_MAX) →
      (∀ x n, entry dist x = USIZE_MAX → hasWalkB g s x n = true →
        d ≤ n) →
      q.length + dist.count USIZE_MAX < fuel →
      (∃ distF predF,
          bfsLoop g e fuel q dist pred = some (false, predF) ∧
          BfsInv g s distF predF ∧ entry distF e = USIZE_MAX ∧
          (∀ x, entry distF x ≠ USIZE_MAX →
            ∀ y ∈ g.adj x, entry distF y ≠ USIZE_MAX)) ∨
      (∃ dist2 pred2,
          bfsLoop g e fuel q dist pred = some (true, pred2) ∧
          BfsInv g s dist2 pred2 ∧ entry dist2 e ≠ USIZE_MAX) := by
  intro fuel
  induction fuel with
  | zero =>
      intro q dist pred d qa qb _ _ _ _ _ _ _ _ hm
      omega
  | succ f ih =>
      intro q dist pred d qa qb hinv heM hqsplit ha hb hqmem hD2 hD4 hm
      cases qa with
      | nil =>
          cases qb with
          | nil =>
              rw [List.nil_append] at hqsplit
              subst hqsplit
              left
              refine ⟨dist, pred, rfl, hinv, heM, ?_⟩
              intro x hx y hy
              exact hD2 x hx (by simp) y hy
          | cons current q' =>
              rw [List.nil_append] at hqsplit
              subst hqsplit
              obtain ⟨hclt, hcM⟩ := hqmem current (by simp)
              have hdc : entry dist current = d + 1 :=
                hb current (by simp)
              have hS := hinv.2.2.1
              have hD3 := hinv.2.2.2.2.2.2.2.2
              have hD4' := bfsD4_upgrade hS hD3 hD2
                (fun x hx => ⟨by
                  rw [hb x hx], (hqmem x hx).2⟩)
                (le_refl (d + 1)) hD4
              have hcdata : current < g.data.length := by
                rw [hWF.1]
                exact hclt
              have hadjget : g.data[current]? = some (g.adj current) := by
                unfold Graph.adj
                rw [List.getElem?_eq_getElem hcdata]
                rfl
              rcases bfsScanInv_ok hWF hse hclt (g.adj current) q' dist
                  pred hinv (fun x hx => hx) hdc (by rw [← hdc]; exact hcM)
                  heM
                  (fun x hx => ⟨(hqmem x (by simp [hx])).1,
                    (hqmem x (by simp [hx])).2, Or.inl (hb x (by simp [hx]))⟩)
                  (fun x hx hxq hxc y hy =>
                    hD2 x hx (by
                      simp only [List.mem_cons, not_or]
                      exact ⟨hxc, hxq⟩) y hy)
                  (fun y hy => Or.inl hy) hD4' with
                ⟨dist2, pred2, heq, hi2, he2⟩ |
                ⟨q2, dist2, pred2, heq, hi2, hp2, he2,
                  ⟨pushed, hq2, hpu⟩, hqq2, hd22, hadj2, hd42, hm2⟩
              · right
                refine ⟨dist2, pred2, ?_, hi2, ?_⟩
                · simp only [bfsLoop, Option.bind_eq_bind, hadjget,
                    Option.some_bind, heq, Option.some_bind]
                · rw [he2]
                  have hbdc := hinv.2.2.2.2.2.1 current hcM
                  rw [hdc] at hbdc
                  have := size_lt_max hWF
                  omega
              · have hloop := ih q2 dist2 pred2 (d + 1) q' pushed hi2 he2
                  (by rw [hq2])
                  (fun x hx => by
                    rw [hp2 x (hqmem x (by simp [hx])).2]
                    exact hb x (by simp [hx]))
                  hpu
                  (fun x hx => ⟨(hqq2 x hx).1, (hqq2 x hx).2.1⟩)
                  (fun x hx hxq y hy => by
                    by_cases hxc : x = current
                    · subst hxc
                      exact hadj2 y hy
                    · exact hd22 x hx hxq hxc y hy)
                  hd42
                  (by
                    rw [hm2]
                    simp only [List.length_cons] at hm
                    omega)
                rcases hloop with
                  ⟨dF, pF, heqF, hiF, heF, hclF⟩ |
                  ⟨d2, p2, heq2, hi2', he2'⟩
                · left
                  refine ⟨dF, pF, ?_, hiF, heF, hclF⟩
                  simp only [bfsLoop, Option.bind_eq_bind, hadjget,
                    Option.some_bind, heq, Option.some_bind, heqF]
                · right
                  refine ⟨d2, p2, ?_, hi2', he2'⟩
                  simp only [bfsLoop, Option.bind_eq_bind, hadjget,
                    Option.some_bind, heq, Option.some_bind, heq2]
      | cons current qa' =>
          rw [List.cons_append] at hqsplit
          subst hqsplit
          obtain ⟨hclt, hcM⟩ := hqmem current (by simp)
          have hdc : entry dist current = d :=
            ha current (by simp)
          have hS := hinv.2.2.1
          have hD3 := hinv.2.2.2.2.2.2.2.2
          have hqlab : ∀ x ∈ qa' ++ qb, entry dist x = d ∨
              entry dist x = d + 1 := by
            intro x hx
            rcases List.mem_append.1 hx with hx' | hx'
            · exact Or.inl (ha x (by simp [hx']))
            · exact Or.inr (hb x hx')
          have hqge : ∀ x ∈ current :: (qa' ++ qb),
              d ≤ entry dist x ∧ entry dist x ≠ USIZE_MAX := by
            intro x hx
            refine ⟨?_, (hqmem x hx).2⟩
            rcases List.mem_cons.1 hx with h | h
            · have h2 : entry dist x = d := by rw [h, hdc]
              omega
            · rcases hqlab x h with h' | h' <;> omega
          have hD4' := bfsD4_upgrade hS hD3 hD2 hqge (by omega) hD4
          have hcdata : current < g.data.length := by
            rw [hWF.1]
            exact hclt
          have hadjget : g.data[current]? = some (g.adj current) := by
            unfold Graph.adj
            rw [List.getElem?_eq_getElem hcdata]
            rfl
          rcases bfsScanInv_ok hWF hse hclt (g.adj current) (qa' ++ qb)
              dist pred hinv (fun x hx => hx) hdc
              (by rw [← hdc]; exact hcM) heM
              (fun x hx => ⟨(hqmem x (by simp [hx])).1,
                (hqmem x (by simp [hx])).2, hqlab x hx⟩)
              (fun x hx hxq hxc y hy =>
                hD2 x hx (by
                  simp only [List.cons_append, List.mem_cons, not_or]
                  refine ⟨hxc, ?_⟩
                  intro hmem
                  exact hxq hmem) y hy)
              (fun y hy => Or.inl hy) hD4' with
            ⟨dist2, pred2, heq, hi2, he2⟩ |
            ⟨q2, dist2, pred2, heq, hi2, hp2, he2,
              ⟨pushed, hq2, hpu⟩, hqq2, hd22, hadj2, hd42, hm2⟩
          · right
            refine ⟨dist2, pred2, ?_, hi2, ?_⟩
            · simp only [bfsLoop, Option.bind_eq_bind, hadjget,
                Option.some_bind, heq, Option.some_bind]
            · rw [he2]
              have hbdc := hinv.2.2.2.2.2.1 current hcM
              rw [hdc] at hbdc
              have := size_lt_max hWF
              omega
          · have hloop := ih q2 dist2 pred2 d qa' (qb ++ pushed) hi2 he2
              (by rw [hq2, List.append_assoc])
              (fun x hx => by
                rw [hp2 x (hqmem x (by simp [hx])).2]
                exact ha x (by simp [hx]))
              (fun x hx => by
                rcases List.mem_append.1 hx with hx' | hx'
                · rw [hp2 x (hqmem x (by simp [hx'])).2]
                  exact hb x hx'
                · exact hpu x hx')
              (fun x hx => ⟨(hqq2 x hx).1, (hqq2 x hx).2.1⟩)
              (fun x hx hxq y hy => by
                by_cases hxc : x = current
                · subst hxc
                  exact hadj2 y hy
                · exact hd22 x hx hxq hxc y hy)
              hd42
              (by
                rw [hm2]
                simp only [List.cons_append, List.length_cons] at hm
                omega)
            rcases hloop with
              ⟨dF, pF, heqF, hiF, heF, hclF⟩ |
              ⟨d2, p2, heq2, hi2', he2'⟩
            · left
              refine ⟨dF, pF, ?_, hiF, heF, hclF⟩
              simp only [bfsLoop, Option.bind_eq_bind, hadjget,
                Option.some_bind, heq, Option.some_bind, heqF]
            · right
              refine ⟨d2, p2, ?_, hi2', he2'⟩
              simp only [bfsLoop, Option.bind_eq_bind, hadjget,
                Option.some_bind, heq, Option.some_bind, heq2]

/-- C7 (amended): for a well-formed graph and in-range vertices,
`shortest_path` returns `NotFound` when `start = end` (even though they
are trivially connected); for `start ≠ end` it returns `NotFound` exactly
when no walk joins them, and otherwise a duplicate-free edge path from
`start` to `end` whose vertex count is minimal (its edge count is at most
that of every joining walk). -/
theorem C7_amended {g : Graph} {s e : Nat} (hWF : g.WF)
    (hs : s < g.size) (he : e < g.size) :
    (s = e → shortest_path g s e = some none) ∧
    (s ≠ e →
      ((∀ n, hasWalkB g s e n = false) →
        shortest_path g s e = some none) ∧
      (∀ n, hasWalkB g s e n = true →
        ∃ p, shortest_path g s e = some (some p) ∧ p.Nodup ∧
          consecEdges g p = true ∧ p.head? = some s ∧
          p.getLast? = some e ∧
          (∀ m, hasWalkB g s e m = true → p.length ≤ m + 1))) := by
  have hM0 : (0 : Nat) ≠ USIZE_MAX := by norm_num [USIZE_MAX]
  have hset1 : setN (List.replicate g.size USIZE_MAX) s 0
      = some ((List.replicate g.size USIZE_MAX).set s 0) := by
    unfold setN
    rw [if_pos (by simpa using hs)]
  constructor
  · intro hseq
    subst hseq
    obtain ⟨pred2, hloop⟩ := bfsLoop_no_find hWF (g.size + 2) [s]
      ((List.replicate g.size USIZE_MAX).set s 0)
      (List.replicate g.size USIZE_MAX)
      (by simp) (by simp)
      (by
        intro x hx
        have hxv : x = s := by simpa using hx
        subst hxv
        refine ⟨hs, ?_⟩
        rw [entry_init hs, if_pos rfl]
        exact hM0)
      (by
        rw [entry_init hs, if_pos rfl]
        exact hM0)
      (by
        intro x hx
        rw [entry_init hs] at hx ⊢
        by_cases h : s = x
        · rw [if_pos h, count_init hs]
          omega
        · rw [if_neg h] at hx
          exact absurd rfl hx)
      (by
        rw [count_init hs]
        simp only [List.length_singleton]
        omega)
    simp only [shortest_path, bfs, Option.bind_eq_bind, hset1,
      Option.some_bind, hloop, Bool.false_eq_true, if_false]
  · intro hse
    set dist1 := (List.replicate g.size USIZE_MAX).set s 0 with hd1def
    have hinv0 : BfsInv g s dist1 (List.replicate g.size USIZE_MAX) := by
      refine ⟨by rw [hd1def]; simp, by simp, ?_, ?_, ?_, ?_, ?_, ?_, ?_⟩
      · rw [hd1def, entry_init hs, if_pos rfl]
      · rw [entry_replicate, if_pos hs]
      · intro x hx
        rw [hd1def, entry_init hs] at hx
        by_cases h : s = x
        · exact h.symm
        · rw [if_neg h] at hx
          norm_num [USIZE_MAX] at hx
      · intro x hx
        rw [hd1def, entry_init hs] at hx ⊢
        rw [count_init hs]
        by_cases h : s = x
        · rw [if_pos h]
          omega
        · rw [if_neg h] at hx
          exact absurd rfl hx
      · intro x hx
        rw [hd1def, entry_init hs] at hx ⊢
        by_cases h : s = x
        · rw [if_pos h]
          subst h
          simp [hasWalkB]
        · rw [if_neg h] at hx
          exact absurd rfl hx
      · intro x hxs hx
        rw [hd1def, entry_init hs,
          if_neg (fun h : s = x => hxs h.symm)] at hx
        exact absurd rfl hx
      · intro x n hx _
        rw [hd1def, entry_init hs] at hx ⊢
        by_cases h : s = x
        · rw [if_pos h]
          omega
        · rw [if_neg h] at hx
          exact absurd rfl hx
    have hloopres := bfsLoopInv_ok hWF hse (g.size + 2) [s] dist1
      (List.replicate g.size USIZE_MAX) 0 [s] [] hinv0
      (by rw [hd1def, entry_init hs, if_neg hse])
      (by simp)
      (by
        intro x hx
        have hxs : x = s := by simpa using hx
        rw [hxs, hd1def, entry_init hs, if_pos rfl])
      (by
        intro x hx
        simp at hx)
      (by
        intro x hx
        have hxs : x = s := by simpa using hx
        subst hxs
        refine ⟨hs, ?_⟩
        rw [hd1def, entry_init hs, if_pos rfl]
        exact hM0)
      (by
        intro x hx hxq y hy
        rw [hd1def, entry_init hs] at hx
        by_cases h : s = x
        · exact absurd (by simp [h.symm]) hxq
        · rw [if_neg h] at hx
          exact absurd rfl hx)
      (by
        intro x n _ _
        omega)
      (by
        rw [hd1def, count_init hs]
        simp only [List.length_singleton]
        omega)
    constructor
    · intro hdisc
      rcases hloopres with ⟨dF, pF, heqF, _, _, _⟩ |
        ⟨d2, p2, _, hi2, he2⟩
      · simp only [shortest_path, bfs, Option.bind_eq_bind, hset1,
          Option.some_bind, heqF, Option.some_bind, Bool.false_eq_true,
          if_false]
      · have hwalk := hi2.2.2.2.2.2.2.1 e he2
        rw [hdisc (entry d2 e)] at hwalk
        exact Bool.noConfusion hwalk
    · intro n hwn
      rcases hloopres with ⟨dF, pF, _, hiF, heF, hclF⟩ |
        ⟨d2, p2, heq2, hi2, he2⟩
      · have hPs : entry dF s ≠ USIZE_MAX := by
          rw [hiF.2.2.1]
          exact hM0
        have hPe := @hasWalkB_closed g
          (fun x => entry dF x ≠ USIZE_MAX) hclF n s e hPs hwn
        exact absurd heF hPe
      · have hkle : entry d2 e ≤ g.size := by
          have := hi2.2.2.2.2.2.1 e he2
          omega
        obtain ⟨chain, hweq, hlen, hlast, hnd, hle, hce⟩ :=
          predWalk_chain hWF hi2 (entry d2 e) e rfl he2 (g.size + 1)
            (by omega) [e]
        have hweq' : predWalk p2 (g.size + 1) e [e]
            = some (e :: chain) := by
          simpa using hweq
        refine ⟨(e :: chain).reverse, ?_, List.nodup_reverse.2 hnd, hce,
          ?_, ?_, ?_⟩
        · simp only [shortest_path, bfs, Option.bind_eq_bind, hset1,
            Option.some_bind, heq2, Option.some_bind, hweq',
            Option.some_bind, eq_self_iff_true, if_true]
        · rw [List.head?_reverse]
          exact hlast
        · rw [List.getLast?_reverse]
          rfl
        · intro m hwm
          have hk := hi2.2.2.2.2.2.2.2.2 e m he2 hwm
          have hplen : (e :: chain).reverse.length = entry d2 e + 1 := by
            simp [hlen]
          rw [hplen]
          omega

/-- Witness for C7 on scenario 1's graph: vertices 0 and 2 are joined by
a two-edge walk, and `shortest_path` returns a minimal valid path. -/
theorem C7_amended_witness :
    ∃ p, shortest_path cyc4 0 2 = some (some p) ∧ p.Nodup ∧
      consecEdges cyc4 p = true ∧ p.head? = some 0 ∧
      p.getLast? = some 2 ∧
      (∀ m, hasWalkB cyc4 0 2 m = true → p.length ≤ m + 1) :=
  ((C7_amended (by decide) (by decide) (by decide)).2
    (by decide)).2 2 (by decide)
